import Mathlib

set_option autoImplicit false

namespace StimulusValidator

/-!
Shallow embedding of the Stimulus/ERB static validator of this repository
(the RSpec system-test file defining `ErbAstParser` and the
`Simple Stimulus Validator` examples).  Template code fragments and
attribute values are modelled as `List Char`; Ruby string primitives
(`include?`, `count`, `scan`, `strip`, `gsub` of literal patterns, ...)
are re-implemented below on `List Char`.
-/

/-- Ruby `\w` (ASCII word character), as used by the validator's regexes. -/
def isWordChar (c : Char) : Bool :=
  (c ≥ 'a' && c ≤ 'z') || (c ≥ 'A' && c ≤ 'Z') || (c ≥ '0' && c ≤ '9') || c = '_'

/-- Ruby whitespace (`\s` / `String#strip`). -/
def isRubySpace (c : Char) : Bool :=
  c = ' ' || c = '\t' || c = '\n' || c = '\r' || c = '\x0b' || c = '\x0c'

/-- The single-quote character (Ruby `'`). -/
def squote : Char := Char.ofNat 39

/-- The double-quote character (Ruby `"`). -/
def dquote : Char := Char.ofNat 34

/-- Ruby `String#include?`: `w` occurs as a contiguous substring of `l`. -/
def containsSub (w : List Char) : List Char → Bool
  | [] => w.isEmpty
  | c :: rest => w.isPrefixOf (c :: rest) || containsSub w rest

/-- Scan forward past the first occurrence of the closing quote `q`,
returning the remainder after it (`none` when `q` does not occur). -/
def stripQuote (q : Char) : List Char → Option (List Char)
  | [] => none
  | c :: rest => if c = q then some rest else stripQuote q rest

/-- One step of Ruby `code.gsub(/'[^']*'|"[^"]*"/, '')`, with `fuel`
bounding the number of scan steps (each step consumes at least one
character, so `fuel = l.length` always suffices; the `0` case is never
reached from `stripStrings`). -/
def stripStringsGo : Nat → List Char → List Char
  | 0, l => l
  | _ + 1, [] => []
  | fuel + 1, c :: rest =>
    if c = squote || c = dquote then
      match stripQuote c rest with
      | some after => stripStringsGo fuel after
      | none => c :: stripStringsGo fuel rest
    else
      c :: stripStringsGo fuel rest

/-- Ruby `code.gsub(/'[^']*'|"[^"]*"/, '')`: delete every single- or
double-quoted string literal (an unmatched opening quote is kept). -/
def stripStrings (l : List Char) : List Char :=
  stripStringsGo l.length l

/-- Word-boundary check for the character preceding a match position. -/
def boundaryBefore (prev : Option Char) : Bool :=
  match prev with
  | none => true
  | some p => !isWordChar p

/-- Word-boundary check for the position after a candidate match. -/
def boundaryAfter (l : List Char) : Bool :=
  match l with
  | [] => true
  | d :: _ => !isWordChar d

/-- Embedding of `containsWordFrom w prev l`: some position of `l` carries the word `w`
delimited by word boundaries (`\bw\b`); `prev` is the character preceding
`l` in the full string. -/
def containsWordFrom (w : List Char) (prev : Option Char) : List Char → Bool
  | [] => false
  | c :: rest =>
    (boundaryBefore prev && w.isPrefixOf (c :: rest) && boundaryAfter ((c :: rest).drop w.length))
      || containsWordFrom w (some c) rest

/-- Ruby `code.match?(/\bw\b/)`. -/
def containsWord (w l : List Char) : Bool :=
  containsWordFrom w none l

/-- Number of positions of `l` at which `\bw\b` matches, with `prev` the
character preceding `l`.  For an all-word-character `w` the matches of
Ruby `scan(/\bw\b/)` can never overlap, so this equals `scan(...).length`. -/
def countWordFrom (w : List Char) (prev : Option Char) : List Char → Nat
  | [] => 0
  | c :: rest =>
    (if boundaryBefore prev && w.isPrefixOf (c :: rest)
        && boundaryAfter ((c :: rest).drop w.length) then 1 else 0)
      + countWordFrom w (some c) rest

/-- Ruby `code.scan(/\bw\b/).length`. -/
def countWord (w l : List Char) : Nat :=
  countWordFrom w none l

/-- Embedding of `ErbAstParser#has_end_keyword?`: after removing string literals, the
code contains a standalone `end` keyword. -/
def hasEndKeyword (code : List Char) : Bool :=
  containsWord "end".toList (stripStrings code)

/-- Helper for the `\b(do\s*(\|[^|]*\|)?)` regex: a position where `do`
occurs preceded by a word boundary (nothing is required after it, since
the rest of the regex is optional). -/
def containsDoOpenerFrom (prev : Option Char) : List Char → Bool
  | [] => false
  | c :: rest =>
    (boundaryBefore prev && ("do".toList).isPrefixOf (c :: rest))
      || containsDoOpenerFrom (some c) rest

/-- Embedding of `\b(do\s*(\|[^|]*\|)?)` of `merge_block_pairs`: since everything after
`do` is optional, this regex matches exactly when some `do` is preceded
by a word boundary (no boundary is required after it). -/
def containsDoOpener (code : List Char) : Bool :=
  containsDoOpenerFrom none code

/-- Embedding of `merge_block_pairs`' opener test:
`code.match?(/\b(do\s*(\|[^|]*\|)?)/) || code.match?(/\{\s*(\|[^|]*\|)?/)`
(the second regex matches whenever a `{` occurs). -/
def opensBlock (code : List Char) : Bool :=
  containsDoOpener code || code.contains '{'

/-- An ERB fragment as produced by `extract_erb_blocks` (the `full_match`
and byte-offset fields, which only feed line-number reporting, are not
modelled). -/
structure Frag where
  output : Bool
  code : List Char
  merged : Bool
deriving DecidableEq, Repr

/-- The inner `while j < blocks.length && nesting_level > 0` loop of
`merge_block_pairs`: starting from `nesting`, consume fragments while the
nesting counter stays positive, adding `scan(/\bdo\b/).length` and
subtracting `scan(/\bend\b/).length` of each consumed fragment's
string-stripped code.  Returns the consumed codes and the remaining
fragments. -/
def consumeBlocks (nesting : Int) : List Frag → (List (List Char) × List Frag)
  | [] => ([], [])
  | b :: rest =>
    if nesting > 0 then
      let stripped := stripStrings b.code
      let nesting' := nesting + (countWord "do".toList stripped : Int)
        - (countWord "end".toList stripped : Int)
      let res := consumeBlocks nesting' rest
      (b.code :: res.1, res.2)
    else
      ([], b :: rest)

/-- Embedding of `"\n"`-join of the opener's code with the consumed codes
(`merged_code += "\n" + next_code`). -/
def joinNewline (first : List Char) : List (List Char) → List Char
  | [] => first
  | c :: cs => joinNewline (first ++ '\n' :: c) cs

/-- Fuel-indexed worker for `merge_block_pairs`; `fuel = blocks.length`
always suffices because each step removes at least the head fragment. -/
def mergeBlockPairsGo : Nat → List Frag → List Frag
  | 0, blocks => blocks
  | _ + 1, [] => []
  | fuel + 1, b :: rest =>
    if opensBlock b.code && !hasEndKeyword b.code then
      let consumed := consumeBlocks 1 rest
      ⟨b.output, joinNewline b.code consumed.1, true⟩ :: mergeBlockPairsGo fuel consumed.2
    else
      b :: mergeBlockPairsGo fuel rest

/-- Embedding of `ErbAstParser#merge_block_pairs`.  A fragment whose code opens a block
(`do`/`{`) without a same-fragment `end` keyword is merged with the
following fragments consumed by `consumeBlocks` (the Ruby loop marks
those indices in `skip_indices`; since they are exactly the fragments
between the opener and the stop position, skipping them is list
recursion on the remainder). -/
def mergeBlockPairs (blocks : List Frag) : List Frag :=
  mergeBlockPairsGo blocks.length blocks

/-! ### `ErbAstParser#preprocess_erb_code` -/

/-- Ruby `String#strip`. -/
def rubyStrip (l : List Char) : List Char :=
  ((l.dropWhile isRubySpace).reverse.dropWhile isRubySpace).reverse

/-- The lines of a string, in the sense of the `^`/`$` anchors of a Ruby
regex (which match at every line boundary). -/
def linesOf : List Char → List (List Char)
  | [] => [[]]
  | '\n' :: rest => [] :: linesOf rest
  | c :: rest =>
    match linesOf rest with
    | [] => [[c]]
    | line :: more => (c :: line) :: more

/-- A line matching `^\w+\s*\(.*\)$` (a simple method-call expression).
The regex is deterministic here: `\w+` and `\s*` are forced to their
maximal runs because the following characters (`(`, and a word character)
are disjoint from them. -/
def matchesParenCall (line : List Char) : Bool :=
  let w := line.takeWhile isWordChar
  let r := (line.dropWhile isWordChar).dropWhile isRubySpace
  !w.isEmpty &&
    (match r with
     | '(' :: rest => !rest.isEmpty && rest.getLast? == some ')'
     | _ => false)

/-- A line matching `^[\w\.\[\]]+$` (identifier/attribute path). -/
def matchesIdentPath (line : List Char) : Bool :=
  !line.isEmpty && line.all (fun c => isWordChar c || c = '.' || c = '[' || c = ']')

/-- A line starting with one of the keywords followed by a word boundary
(`^(kw1|kw2|...)\b`). -/
def startsWithKw (kws : List (List Char)) (line : List Char) : Bool :=
  kws.any (fun k => k.isPrefixOf line && boundaryAfter (line.drop k.length))

/-- Core of `^@?\w+\s*[=\[]` after the optional `@`: `\w+\s*` then `=`
or `[`. -/
def assignCore (l : List Char) : Bool :=
  let w := l.takeWhile isWordChar
  let r := (l.dropWhile isWordChar).dropWhile isRubySpace
  !w.isEmpty &&
    (match r with
     | '=' :: _ => true
     | '[' :: _ => true
     | _ => false)

/-- A line matching `^@?\w+\s*[=\[]` (simple assignment / index). -/
def matchesAssignStart (line : List Char) : Bool :=
  (match line with
   | '@' :: rest => assignCore rest
   | _ => false) || assignCore line

/-- A line matching `^[\w\.\["']+$`. -/
def matchesSimpleToken (line : List Char) : Bool :=
  !line.isEmpty &&
    line.all (fun c => isWordChar c || c = '.' || c = '[' || c = dquote || c = squote)

/-- The keyword pre-filter of `preprocess_erb_code`. -/
def stimulusKeywords : List (List Char) :=
  ["data".toList, "controller".toList, "target".toList, "action".toList, "value".toList]

/-- Embedding of `code.strip.match?(/^\w+\s*\(.*\)$/) || code.strip.match?(/^[\w\.\[\]]+$/)`. -/
def guardSimpleExpr (code : List Char) : Bool :=
  let ls := linesOf (rubyStrip code)
  ls.any matchesParenCall || ls.any matchesIdentPath

/-- The control-structure guard of `preprocess_erb_code`. -/
def guardControlFlow (code : List Char) : Bool :=
  (linesOf (rubyStrip code)).any (startsWithKw
    ["if".toList, "unless".toList, "case".toList, "when".toList, "else".toList,
     "elsif".toList, "end".toList, "do".toList, "while".toList, "for".toList,
     "begin".toList, "rescue".toList, "ensure".toList])

/-- The definition guard (`^(def|class|module)\b`). -/
def guardDefinition (code : List Char) : Bool :=
  (linesOf (rubyStrip code)).any (startsWithKw
    ["def".toList, "class".toList, "module".toList])

/-- The assignment/simple-expression guard
(`^@?\w+\s*[=\[]` or `^[\w\.\["']+$`). -/
def guardAssignment (code : List Char) : Bool :=
  let ls := linesOf (rubyStrip code)
  ls.any matchesAssignStart || ls.any matchesSimpleToken

/-- The condition of the `do`-closing fixup: no standalone `end` outside
strings, and either `' do |'` occurs, or `' do'` occurs with no `|`
anywhere. -/
def doAppendCond (code : List Char) : Bool :=
  !hasEndKeyword code
    && (containsSub " do |".toList code
        || (containsSub " do".toList code && !code.contains '|'))

/-- Embedding of `processed += "\nend"` when `doAppendCond` holds. -/
def appendEnd (code : List Char) : List Char :=
  if doAppendCond code then code ++ "\nend".toList else code

/-- Embedding of `processed += ' }' * (count('{') - count('}'))` when braces are
unbalanced. -/
def closeBraces (p : List Char) : List Char :=
  if p.count '{' > p.count '}'
  then p ++ (List.replicate (p.count '{' - p.count '}') [' ', '}']).flatten
  else p

/-- Embedding of `processed += ' ]' * (count('[') - count(']'))` when brackets are
unbalanced. -/
def closeBrackets (p : List Char) : List Char :=
  if p.count '[' > p.count ']'
  then p ++ (List.replicate (p.count '[' - p.count ']') [' ', ']']).flatten
  else p

/-- Embedding of `processed += ' )' * (count('(') - count(')'))` when parens are
unbalanced. -/
def closeParens (p : List Char) : List Char :=
  if p.count '(' > p.count ')'
  then p ++ (List.replicate (p.count '(' - p.count ')') [' ', ')']).flatten
  else p

/-- The fixup sequence of `preprocess_erb_code`: append `"\nend"` for an
unmatched `do`, then append enough `' }'` / `' ]'` / `' )'` to balance
the brace, bracket and paren counts (in that order, each count taken on
the string produced so far). -/
def autoClose (code : List Char) : List Char :=
  closeParens (closeBrackets (closeBraces (appendEnd code)))

/-- Embedding of `ErbAstParser#preprocess_erb_code`: keyword pre-filter, early returns
for already-parseable shapes, then heuristic auto-closing of an unmatched
`do` and of unbalanced braces / brackets / parens. -/
def preprocessErbCode (code : List Char) : List Char :=
  if !stimulusKeywords.any (fun k => containsSub k code) then code
  else if guardSimpleExpr code then code
  else if guardControlFlow code then code
  else if guardDefinition code then code
  else if guardAssignment code then code
  else autoClose code

/-! ### Ruby AST model and the AST query engine

The fragments are parsed by the external `parser` gem
(`Parser::CurrentRuby.parse`); the parser itself is outside this
component, so the node shapes the queries inspect are modelled as an
inductive type and the parse step as a function parameter
`parse : List Char → Option Ast` (`none` = `Parser::SyntaxError`). -/

/-- The `Parser::AST::Node` shapes inspected by the validator's queries.
Non-node children (the literal `String`/`Symbol` payloads, which the
Ruby walkers skip via `is_a?(Parser::AST::Node)`) are carried inline. -/
inductive Ast where
  | hash (pairs : List Ast)
  | pair (key value : Ast)
  | send (recv : Option Ast) (method : List Char) (args : List Ast)
  | str (s : List Char)
  | sym (s : List Char)
  | dstr (parts : List Ast)
  | lvar (name : List Char)
  | lvasgn (name : List Char) (value : Option Ast)
  | constN (recv : Option Ast) (name : List Char)
  | beginN (parts : List Ast)

/-- The node-valued children of a node, in order (`node.children` with
non-node entries dropped, as done by every recursive walker). -/
def Ast.childNodes : Ast → List Ast
  | .hash pairs => pairs
  | .pair k v => [k, v]
  | .send recv _ args => recv.toList ++ args
  | .str _ => []
  | .sym _ => []
  | .dstr parts => parts
  | .lvar _ => []
  | .lvasgn _ value => value.toList
  | .constN recv _ => recv.toList
  | .beginN parts => parts

mutual

/-- Executable node count of an `Ast`, used as recursion fuel by the
walkers below (it bounds the tree depth, which is what the fuel needs). -/
def Ast.size : Ast → Nat
  | .hash pairs => 1 + Ast.sizeList pairs
  | .pair k v => 1 + k.size + v.size
  | .send recv _ args =>
    1 + (match recv with | some r => r.size | none => 0) + Ast.sizeList args
  | .str _ => 1
  | .sym _ => 1
  | .dstr parts => 1 + Ast.sizeList parts
  | .lvar _ => 1
  | .lvasgn _ value => 1 + (match value with | some v => v.size | none => 0)
  | .constN recv _ => 1 + (match recv with | some r => r.size | none => 0)
  | .beginN parts => 1 + Ast.sizeList parts

/-- Sum of `Ast.size` over a list. -/
def Ast.sizeList : List Ast → Nat
  | [] => 0
  | n :: rest => n.size + Ast.sizeList rest

end

/-- Ruby `controller_name.gsub('-', '_')`. -/
def dashToUnderscore (l : List Char) : List Char :=
  l.map (fun c => if c = '-' then '_' else c)

/-- Ruby `String#dasherize` / `gsub('_', '-')`. -/
def underscoreToDash (l : List Char) : List Char :=
  l.map (fun c => if c = '_' then '-' else c)

/-- A match reported by the target query (the `key_node`/`value_node`
references are not modelled; only existence of matches is consumed). -/
structure TargetMatch where
  stringKey : Bool
  controller : List Char
  target : List Char
deriving DecidableEq, Repr

/-- Embedding of `ErbAstParser#find_targets_in_hash`: string key
`"{controller}-target"` with string value = target, or symbol key in
underscored or hyphenated form with string value = target. -/
def findTargetsInHash (pairs : List Ast) (cn tn : List Char) : List TargetMatch :=
  pairs.flatMap fun pairNode =>
    match pairNode with
    | .pair (.str k) (.str v) =>
      if k == cn ++ "-target".toList && v == tn then
        [⟨true, cn, tn⟩]
      else []
    | .pair (.sym k) (.str v) =>
      if (k == dashToUnderscore cn ++ "_target".toList || k == cn ++ "-target".toList)
          && v == tn then
        [⟨false, cn, tn⟩]
      else []
    | _ => []

/-- Embedding of `ErbAstParser#find_targets_in_method_call`: the hash arguments of a
method call are searched with `find_targets_in_hash`. -/
def findTargetsInMethodCall (node : Ast) (cn tn : List Char) : List TargetMatch :=
  match node with
  | .send _ _ args =>
    args.flatMap fun arg =>
      match arg with
      | .hash pairs => findTargetsInHash pairs cn tn
      | _ => []
  | _ => []

/-- Fuel-indexed worker for `find_targets_in_ast`; the fuel bounds the
recursion depth, so `sizeOf node` always suffices (every child node has
strictly smaller `sizeOf`). -/
def findTargetsInAstGo : Nat → Ast → List Char → List Char → List TargetMatch
  | 0, _, _, _ => []
  | fuel + 1, node, cn, tn =>
    (match node with
     | .hash pairs => findTargetsInHash pairs cn tn
     | .send _ _ _ => findTargetsInMethodCall node cn tn
     | _ => []) ++ node.childNodes.flatMap (fun c => findTargetsInAstGo fuel c cn tn)

/-- Embedding of `ErbAstParser#find_targets_in_ast`: dispatch on hash/send nodes, then
recurse into every child node (so hash arguments of calls are visited
twice, exactly as in the Ruby walker). -/
def findTargetsInAst (node : Ast) (cn tn : List Char) : List TargetMatch :=
  findTargetsInAstGo node.size node cn tn

/-- A parsed `[event->]controller#method[@option]` action descriptor. -/
structure ParsedAction where
  action : List Char
  event : Option (List Char)
  controller : List Char
  method : List Char
deriving DecidableEq, Repr

/-- Maximal run of word characters. -/
def wordRun (l : List Char) : List Char × List Char :=
  (l.takeWhile isWordChar, l.dropWhile isWordChar)

/-- Fuel-indexed worker for `dotWords`. -/
def dotWordsGo : Nat → List Char → List Char
  | 0, l => l
  | fuel + 1, l =>
    match l with
    | '.' :: c :: rest =>
      if isWordChar c then dotWordsGo fuel ((c :: rest).dropWhile isWordChar)
      else l
    | _ => l

/-- The `(?:\.\w+)*` tail of the event part: consume `.word` groups. -/
def dotWords (l : List Char) : List Char :=
  dotWordsGo l.length l

/-- Fuel-indexed worker for `dashWords`. -/
def dashWordsGo : Nat → List Char → List Char × List Char
  | 0, l => ([], l)
  | fuel + 1, l =>
    match l with
    | '-' :: c :: rest =>
      if isWordChar c then
        let consumed := (c :: rest).takeWhile isWordChar
        let res := dashWordsGo fuel ((c :: rest).dropWhile isWordChar)
        ('-' :: consumed ++ res.1, res.2)
      else ([], l)
    | _ => ([], l)

/-- The `(?:-\w+)*` tail of the controller part: consume `-word` groups,
returning the consumed part and the remainder. -/
def dashWords (l : List Char) : List Char × List Char :=
  dashWordsGo l.length l

/-- The `\w+(?:\.\w+)*->` event prefix of the action regex; all runs are
forced (the alphabets of adjacent regex pieces are disjoint), so the
regex engine's backtracking cannot produce a different split. -/
def parseEventPart (tok : List Char) : Option (List Char × List Char) :=
  let w := wordRun tok
  if w.1.isEmpty then none
  else
    let afterEvent := dotWords w.2
    match afterEvent with
    | '-' :: '>' :: rest => some ((tok.take (tok.length - afterEvent.length)), rest)
    | _ => none

/-- The `(\w+(?:-\w+)*)#(\w+)(?:@\w+)?$` tail of the action regex:
controller, `#`, method, optional `@option`, end of token. -/
def parseControllerMethod (l : List Char) : Option (List Char × List Char) :=
  let c1 := wordRun l
  if c1.1.isEmpty then none
  else
    let dashed := dashWords c1.2
    match dashed.2 with
    | '#' :: r =>
      let m := wordRun r
      if m.1.isEmpty then none
      else
        match m.2 with
        | [] => some (c1.1 ++ dashed.1, m.1)
        | '@' :: r2 =>
          let o := wordRun r2
          if !o.1.isEmpty && o.2.isEmpty then some (c1.1 ++ dashed.1, m.1) else none
        | _ => none
    | _ => none

/-- One token matched against
`/^(?:(\w+(?:\.\w+)*)->)?(\w+(?:-\w+)*)#(\w+)(?:@\w+)?$/`
(the regex of `parse_action_string`). -/
def parseActionToken (tok : List Char) : Option ParsedAction :=
  match parseEventPart tok with
  | some (ev, rest) =>
    match parseControllerMethod rest with
    | some (c, m) => some ⟨tok, some ev, c, m⟩
    | none =>
      match parseControllerMethod tok with
      | some (c, m) => some ⟨tok, none, c, m⟩
      | none => none
  | none =>
    match parseControllerMethod tok with
    | some (c, m) => some ⟨tok, none, c, m⟩
    | none => none

/-- Fuel-indexed worker for `scanTokens`. -/
def scanTokensGo : Nat → List Char → List (List Char)
  | 0, _ => []
  | fuel + 1, l =>
    match l with
    | [] => []
    | c :: rest =>
      if isRubySpace c then scanTokensGo fuel rest
      else ((c :: rest).takeWhile (fun d => !isRubySpace d))
        :: scanTokensGo fuel ((c :: rest).dropWhile (fun d => !isRubySpace d))

/-- Ruby `action_string.scan(/\S+/)`: the maximal whitespace-free runs. -/
def scanTokens (l : List Char) : List (List Char) :=
  scanTokensGo l.length l

/-- Embedding of `parse_action_string` (both copies in the file are identical):
tokenize on whitespace and keep the tokens matching the action pattern. -/
def parseActionString (s : List Char) : List ParsedAction :=
  (scanTokens s).filterMap parseActionToken

/-- A match reported by the action query. -/
structure ActionMatch where
  actionString : List Char
  parsedAction : ParsedAction
deriving DecidableEq, Repr

/-- Whether a key node is literally `action` (string or symbol), as
tested by `find_actions_in_hash`. -/
def Ast.isActionKey : Ast → Bool
  | .str k => k == "action".toList
  | .sym k => k == "action".toList
  | _ => false

/-- The controller filter of `find_actions_in_hash`:
`controller_name.nil? || action[:controller] == controller_name`. -/
def controllerFilter (cn : Option (List Char)) (a : ParsedAction) : Bool :=
  match cn with
  | none => true
  | some c => a.controller == c

/-- Embedding of `ErbAstParser#find_actions_in_hash`: hash pairs keyed literally
`action` (string or symbol) with a string value; the value is parsed and
filtered by the optional controller name. -/
def findActionsInHash (pairs : List Ast) (cn : Option (List Char)) : List ActionMatch :=
  pairs.flatMap fun pairNode =>
    match pairNode with
    | .pair k v =>
      if k.isActionKey then
        match v with
        | .str s =>
          (parseActionString s).filterMap fun a =>
            if controllerFilter cn a then some ⟨s, a⟩ else none
        | _ => []
      else []
    | _ => []

/-- Embedding of `ErbAstParser#find_actions_in_method_call`. -/
def findActionsInMethodCall (node : Ast) (cn : Option (List Char)) : List ActionMatch :=
  match node with
  | .send _ _ args =>
    args.flatMap fun arg =>
      match arg with
      | .hash pairs => findActionsInHash pairs cn
      | _ => []
  | _ => []

/-- Fuel-indexed worker for `find_actions_in_ast`. -/
def findActionsInAstGo : Nat → Ast → Option (List Char) → List ActionMatch
  | 0, _, _ => []
  | fuel + 1, node, cn =>
    (match node with
     | .hash pairs => findActionsInHash pairs cn
     | .send _ _ _ => findActionsInMethodCall node cn
     | _ => []) ++ node.childNodes.flatMap (fun c => findActionsInAstGo fuel c cn)

/-- Embedding of `ErbAstParser#find_actions_in_ast`. -/
def findActionsInAst (node : Ast) (cn : Option (List Char)) : List ActionMatch :=
  findActionsInAstGo node.size node cn

/-- Ruby `value_name.gsub(/([a-z])([A-Z])/, '\1-\2').downcase`
(camelCase → kebab-case). -/
def camelToKebab : List Char → List Char
  | [] => []
  | a :: b :: rest =>
    if (a ≥ 'a' && a ≤ 'z') && (b ≥ 'A' && b ≤ 'Z') then
      a :: '-' :: camelToKebab (b :: rest)
    else a.toLower :: camelToKebab (b :: rest)
  | [a] => [a.toLower]

/-- Ruby `value_name.gsub(/([a-z])([A-Z])/, '\1_\2').downcase`. -/
def camelToSnake : List Char → List Char
  | [] => []
  | a :: b :: rest =>
    if (a ≥ 'a' && a ≤ 'z') && (b ≥ 'A' && b ≤ 'Z') then
      a :: '_' :: camelToSnake (b :: rest)
    else a.toLower :: camelToSnake (b :: rest)
  | [a] => [a.toLower]

/-- A match reported by the value query. -/
structure ValueMatch where
  stringKey : Bool
  controller : List Char
  value : List Char
deriving DecidableEq, Repr

/-- Embedding of `ErbAstParser#find_values_in_hash`. -/
def findValuesInHash (pairs : List Ast) (cn vn : List Char) : List ValueMatch :=
  pairs.flatMap fun pairNode =>
    match pairNode with
    | .pair (.str k) _ =>
      if k == cn ++ '-' :: camelToKebab vn ++ "-value".toList then
        [⟨true, cn, vn⟩]
      else []
    | .pair (.sym k) _ =>
      if k == dashToUnderscore cn ++ '_' :: camelToSnake vn ++ "_value".toList
          || k == cn ++ '-' :: camelToKebab vn ++ "-value".toList then
        [⟨false, cn, vn⟩]
      else []
    | _ => []

/-- Embedding of `ErbAstParser#find_values_in_method_call`. -/
def findValuesInMethodCall (node : Ast) (cn vn : List Char) : List ValueMatch :=
  match node with
  | .send _ _ args =>
    args.flatMap fun arg =>
      match arg with
      | .hash pairs => findValuesInHash pairs cn vn
      | _ => []
  | _ => []

/-- Fuel-indexed worker for `find_values_in_ast`. -/
def findValuesInAstGo : Nat → Ast → List Char → List Char → List ValueMatch
  | 0, _, _, _ => []
  | fuel + 1, node, cn, vn =>
    (match node with
     | .hash pairs => findValuesInHash pairs cn vn
     | .send _ _ _ => findValuesInMethodCall node cn vn
     | _ => []) ++ node.childNodes.flatMap (fun c => findValuesInAstGo fuel c cn vn)

/-- Embedding of `ErbAstParser#find_values_in_ast`. -/
def findValuesInAst (node : Ast) (cn vn : List Char) : List ValueMatch :=
  findValuesInAstGo node.size node cn vn

/-- The hash-pair test of `contains_controller_in_ast?`: key literally
`controller` (string or symbol) with string value equal to the name. -/
def declaresController (pairNode : Ast) (cn : List Char) : Bool :=
  match pairNode with
  | .pair (.str k) (.str v) => k == "controller".toList && v == cn
  | .pair (.sym k) (.str v) => k == "controller".toList && v == cn
  | _ => false

/-- Fuel-indexed worker for `contains_controller_in_ast?`. -/
def containsControllerInAstGo : Nat → Ast → List Char → Bool
  | 0, _, _ => false
  | fuel + 1, node, cn =>
    (match node with
     | .hash pairs => pairs.any (fun p => declaresController p cn)
     | .send _ _ args => args.any (fun a => containsControllerInAstGo fuel a cn)
     | _ => false)
      || node.childNodes.any (fun c => containsControllerInAstGo fuel c cn)

/-- Embedding of `ErbAstParser#contains_controller_in_ast?`: a hash pair keyed
`controller` (string or symbol) whose string value equals the controller
name, searched recursively (including through call arguments). -/
def containsControllerInAst (node : Ast) (cn : List Char) : Bool :=
  containsControllerInAstGo node.size node cn

/-! ### Fragment-level queries (`find_stimulus_*`)

`Parser::CurrentRuby.parse` raises `Parser::SyntaxError` on bad input;
the `find_stimulus_*` methods call it with **no** `rescue` ("fail fast on
errors"), so a parse failure propagates out of the query.  The parse step
is a parameter (`none` = syntax error) and the propagation is an
`Except`. -/

/-- Embedding of `ErbAstParser#should_parse_for_targets?`. -/
def shouldParseForTargets (code cn tn : List Char) : Bool :=
  containsSub "data".toList code
    && (containsSub "target".toList code || containsSub tn code || containsSub cn code)

/-- Embedding of `ErbAstParser#should_parse_for_actions?`. -/
def shouldParseForActions (code : List Char) : Bool :=
  containsSub "data".toList code && containsSub "action".toList code

/-- Embedding of `ErbAstParser#should_parse_for_values?`. -/
def shouldParseForValues (code cn vn : List Char) : Bool :=
  containsSub "data".toList code
    && (containsSub "value".toList code || containsSub vn code || containsSub cn code)

/-- Embedding of `ErbAstParser#find_stimulus_targets`: for each fragment passing the
keyword pre-filter, preprocess and parse its code — unrescued, so the
first unparseable fragment aborts the whole query — and collect the
target matches of the parsed tree. -/
def findStimulusTargets (parse : List Char → Option Ast) (blocks : List Frag)
    (cn tn : List Char) : Except Unit (List (Frag × TargetMatch)) :=
  match blocks with
  | [] => .ok []
  | b :: rest =>
    if shouldParseForTargets b.code cn tn then
      match parse (preprocessErbCode b.code) with
      | none => .error ()
      | some ast =>
        match findStimulusTargets parse rest cn tn with
        | .error e => .error e
        | .ok results => .ok ((findTargetsInAst ast cn tn).map (fun m => (b, m)) ++ results)
    else
      findStimulusTargets parse rest cn tn

/-- Embedding of `ErbAstParser#find_stimulus_actions` (same unrescued parse). -/
def findStimulusActions (parse : List Char → Option Ast) (blocks : List Frag)
    (cn : Option (List Char)) : Except Unit (List (Frag × ActionMatch)) :=
  match blocks with
  | [] => .ok []
  | b :: rest =>
    if shouldParseForActions b.code then
      match parse (preprocessErbCode b.code) with
      | none => .error ()
      | some ast =>
        match findStimulusActions parse rest cn with
        | .error e => .error e
        | .ok results => .ok ((findActionsInAst ast cn).map (fun m => (b, m)) ++ results)
    else
      findStimulusActions parse rest cn

/-- Embedding of `ErbAstParser#find_stimulus_values` (same unrescued parse). -/
def findStimulusValues (parse : List Char → Option Ast) (blocks : List Frag)
    (cn vn : List Char) : Except Unit (List (Frag × ValueMatch)) :=
  match blocks with
  | [] => .ok []
  | b :: rest =>
    if shouldParseForValues b.code cn vn then
      match parse (preprocessErbCode b.code) with
      | none => .error ()
      | some ast =>
        match findStimulusValues parse rest cn vn with
        | .error e => .error e
        | .ok results => .ok ((findValuesInAst ast cn vn).map (fun m => (b, m)) ++ results)
    else
      findStimulusValues parse rest cn vn

/-! ### Markup (DOM) model

`Nokogiri::HTML::DocumentFragment.parse` produces a node tree; the
validators use attribute reads, descendant CSS searches with the
`[attr*='v']` substring operator, and identity-based ancestor checks.
Elements carry a numeric `id` modelling Nokogiri node identity
(`ancestor == controller_element`). -/

/-- A parsed markup element: identity, attributes, children.  The
document root models the `DocumentFragment` container node (it carries
no attributes and is not matched by CSS queries, which return element
descendants). -/
inductive Elem where
  | mk (id : Nat) (attrs : List (List Char × List Char)) (children : List Elem)

/-- Node identity. -/
def Elem.id : Elem → Nat
  | .mk i _ _ => i

/-- Attribute list. -/
def Elem.attrs : Elem → List (List Char × List Char)
  | .mk _ a _ => a

/-- Child elements. -/
def Elem.children : Elem → List Elem
  | .mk _ _ c => c

mutual

/-- Executable node count of an element tree (recursion fuel). -/
def Elem.size : Elem → Nat
  | .mk _ _ children => 1 + Elem.sizeList children

/-- Sum of `Elem.size` over a list. -/
def Elem.sizeList : List Elem → Nat
  | [] => 0
  | e :: rest => e.size + Elem.sizeList rest

end

/-- Nokogiri `element[name]`: the attribute value, if present. -/
def getAttr (e : Elem) (name : List Char) : Option (List Char) :=
  (e.attrs.find? (fun p => p.1 == name)).map (·.2)

/-- Nokogiri `element.has_attribute?(name)`. -/
def hasAttr (e : Elem) (name : List Char) : Bool :=
  e.attrs.any (fun p => p.1 == name)

/-- Fuel-indexed worker for `Elem.descendants`. -/
def Elem.descendantsGo : Nat → Elem → List Elem
  | 0, _ => []
  | fuel + 1, e => e.children.flatMap (fun c => c :: Elem.descendantsGo fuel c)

/-- The proper descendants of an element, in document order (the scope of
`element.css(...)`). -/
def Elem.descendants (e : Elem) : List Elem :=
  Elem.descendantsGo e.size e

/-- Embedding of `element.css("[attr*='t']")`: descendants whose `attr` value contains
`t` as a substring (the CSS `*=` operator). -/
def cssAttrSubstr (e : Elem) (attr t : List Char) : List Elem :=
  e.descendants.filter (fun d =>
    match getAttr d attr with
    | some v => containsSub t v
    | none => false)

/-- Fuel-indexed worker for `outsideNodes`. -/
def outsideNodesGo : Nat → Nat → Elem → List Elem
  | 0, _, _ => []
  | fuel + 1, ceId, e =>
    e :: (if e.id == ceId then [] else e.children.flatMap (outsideNodesGo fuel ceId))

/-- The elements of `doc` none of whose (proper) ancestors is the node
with identity `ceId` — exactly the elements for which the Ruby loop
`element.ancestors.each { ... == controller_element }` leaves
`is_outside_scope` true.  (The controller element itself has no ancestor
equal to itself, so it is "outside" too, faithfully to the Ruby check.) -/
def outsideNodes (doc : Elem) (ceId : Nat) : List Elem :=
  doc.children.flatMap (outsideNodesGo doc.size ceId)

/-- The `data-{controller}-target` attribute name. -/
def targetAttrName (cn : List Char) : List Char :=
  "data-".toList ++ cn ++ "-target".toList

/-- The Finding kinds of the target validator
(`target_scope_errors` vs `target_errors`). -/
inductive TargetErrKind where
  | outOfScope
  | missing
deriving DecidableEq, Repr

/-- A target Finding. -/
structure TargetFinding where
  controller : List Char
  target : List Char
  kind : TargetErrKind
deriving DecidableEq, Repr

/-- The per-target body of the target-validation loop (`'validates that
controller targets exist in HTML and actions have methods'`, steps 1–3
then the out-of-scope / missing classification).  `erbTargets` is the
value of `find_stimulus_targets(controller_name, target)` for this file
(the unrescued parse step of that call is modelled by
`findStimulusTargets`). -/
def classifyTarget (doc ce : Elem) (cn t : List Char)
    (erbTargets : List (Frag × TargetMatch)) : Option TargetFinding :=
  let foundDirect :=
    match getAttr ce (targetAttrName cn) with
    | some v => containsSub t v
    | none => false
  let foundDescendant := foundDirect || !(cssAttrSubstr ce (targetAttrName cn) t).isEmpty
  let foundInScope := foundDescendant || !erbTargets.isEmpty
  if foundInScope then none
  else
    let existsElsewhere := (outsideNodes doc ce.id).any (fun e =>
      match getAttr e (targetAttrName cn) with
      | some v => containsSub t v
      | none => false)
    if existsElsewhere then some ⟨cn, t, .outOfScope⟩
    else some ⟨cn, t, .missing⟩

/-- The external controller metadata (`controller_data[controller_name]`,
produced by the TypeScript-parser subprocess; consumed read-only). -/
structure ControllerDescriptor where
  targets : List (List Char)
  optionalTargets : List (List Char)
  targetsWithSkip : List (List Char)
  values : List (List Char)
  valuesWithDefaults : List (List Char)
  valuesWithSkip : List (List Char)
  outlets : List (List Char)
  methods : List (List Char)
deriving DecidableEq, Repr

/-- The `controller_data[controller_name][:targets].each` loop: skip
optional and skip-marked targets, classify the rest. -/
def validateTargets (doc ce : Elem) (cn : List Char) (cd : ControllerDescriptor)
    (erbT : List Char → List (Frag × TargetMatch)) : List TargetFinding :=
  cd.targets.flatMap fun t =>
    if cd.optionalTargets.contains t then []
    else if cd.targetsWithSkip.contains t then []
    else
      match classifyTarget doc ce cn t (erbT t) with
      | none => []
      | some f => [f]

/-- The Finding kinds of the outlet validator. -/
inductive OutletErrKind where
  | wrongAttributeName
  | missingOutlet
  | invalidSelector
  | targetNotFound
deriving DecidableEq, Repr

/-- An outlet Finding. -/
structure OutletFinding where
  controller : List Char
  outlet : List Char
  kind : OutletErrKind
deriving DecidableEq, Repr

/-- The `data-{controller}-{outlet_name.gsub('_','-')}-outlet` attribute
name. -/
def outletAttrName (cn o : List Char) : List Char :=
  "data-".toList ++ cn ++ '-' :: underscoreToDash o ++ "-outlet".toList

/-- The `/^\[data-controller/` test on an outlet selector (Ruby `^` is a
line anchor). -/
def validOutletSelectorStart (sel : List Char) : Bool :=
  (linesOf sel).any (fun ln => ("[data-controller".toList).isPrefixOf ln)

/-- The `controller_data[controller_name][:outlets].each` loop.  Only the
controller element's own attributes are consulted for the outlet
attribute; `cssMatchExists` abstracts `doc.css(outlet_selector).first`
for the arbitrary selector string of the final existence check. -/
def validateOutlets (ce : Elem) (cn : List Char) (cd : ControllerDescriptor)
    (cssMatchExists : List Char → Bool) : List OutletFinding :=
  cd.outlets.flatMap fun o =>
    let attr := outletAttrName cn o
    match getAttr ce attr with
    | none =>
      if hasAttr ce (attr ++ "-value".toList) then [⟨cn, o, .wrongAttributeName⟩]
      else [⟨cn, o, .missingOutlet⟩]
    | some sel =>
      if !validOutletSelectorStart sel then [⟨cn, o, .invalidSelector⟩]
      else if cssMatchExists sel then []
      else [⟨cn, o, .targetNotFound⟩]

/-! ### Action validator -/

/-- Where a parsed action came from (`source`). -/
inductive ActionSource where
  | erbAst
  | html
deriving DecidableEq, Repr

/-- Embedding of `error_type` of a scope Finding. -/
inductive ScopeErrKind where
  | outOfScope
  | missingController
deriving DecidableEq, Repr

/-- A scope Finding (`scope_errors` entry). -/
structure ScopeFinding where
  action : List Char
  controller : List Char
  errorType : ScopeErrKind
deriving DecidableEq, Repr

/-- A method Finding (`action_errors` entry). -/
structure MethodFinding where
  action : List Char
  controller : List Char
  method : List Char
deriving DecidableEq, Repr

/-- The `data-controller` attribute name. -/
def dataControllerAttr : List Char :=
  "data-controller".toList

/-- Embedding of `element['data-controller']&.include?(controller_name)` — a substring
check, as in the HTML scope-resolution branch. -/
def elemDeclares (e : Elem) (cn : List Char) : Bool :=
  match getAttr e dataControllerAttr with
  | some v => containsSub cn v
  | none => false

/-- Embedding of `controller_exists_in_file` as the program actually
computes it: token-exact search of every `data-controller` attribute of
the document (`split(/\s+/).include?(controller_name)`; the possible
leading empty token of Ruby's `split(/\s+/)` can only matter for an
empty controller name), followed by the fragment scan.  That scan is
dead code: its call `contains_controller_in_ast?(ast, controller_name)`
names a private `ErbAstParser` instance method that is not defined in
the RSpec example-group scope where the scan runs (the working call
sites use `erb_parser.send`, as the `preprocess_erb_code` call on the
line just above it does), so reaching it raises `NoMethodError`; the
bare `rescue` of the scan swallows it just as it swallows
`Parser::SyntaxError`, the fragment is skipped, and the flag is never
set — whether or not the fragment's code parses, and whatever it
declares. -/
def controllerExistsInFile (doc : Elem) (parse : List Char → Option Ast)
    (blocks : List Frag) (cn : List Char) : Bool :=
  doc.descendants.any (fun e =>
    match getAttr e dataControllerAttr with
    | some v => (scanTokens v).contains cn
    | none => false)
  || blocks.any (fun b =>
      containsSub "data".toList b.code && containsSub "controller".toList b.code &&
        match parse (preprocessErbCode b.code) with
        | some _ => false
        | none => false)

/-- The controller-scope resolution of the `all_actions.each` loop.
`erbScopeByLines` is the value of `check_erb_action_scope` (the
line-range heuristic); `parentControllers` is the value of
`get_controllers_from_parents`; `actionElem` is the HTML action element
together with its ancestor chain. -/
def resolveActionScope (path : List Char) (parentControllers : List (List Char))
    (src : ActionSource) (actionElem : Option (Elem × List Elem))
    (erbScopeByLines : Bool) (cn : List Char) : Bool :=
  let isPartialPath := containsSub "_".toList path
  match src with
  | .erbAst =>
    erbScopeByLines
      || (isPartialPath && parentControllers.contains cn)
  | .html =>
    let fromMarkup :=
      match actionElem with
      | some (el, ancs) => elemDeclares el cn || ancs.any (fun a => elemDeclares a cn)
      | none => false
    fromMarkup || (isPartialPath && parentControllers.contains cn)

/-- The scope-Finding / method-Finding dispatch of the `all_actions.each`
loop: unresolved scope emits exactly one scope Finding (classified by
`controller_exists_in_file`) and `next`s past the method check; resolved
scope runs only the method check. -/
def processAction (doc : Elem) (parse : List Char → Option Ast) (blocks : List Frag)
    (path : List Char) (parentControllers : List (List Char))
    (src : ActionSource) (actionElem : Option (Elem × List Elem))
    (erbScopeByLines : Bool)
    (controllerData : List (List Char × ControllerDescriptor))
    (action cn mname : List Char) :
    List ScopeFinding × List MethodFinding :=
  let scopeResolved := resolveActionScope path parentControllers src actionElem erbScopeByLines cn
  if !scopeResolved then
    let existsInFile := controllerExistsInFile doc parse blocks cn
    ([⟨action, cn, if existsInFile then .outOfScope else .missingController⟩], [])
  else
    match controllerData.find? (fun p => p.1 == cn) with
    | some cdEntry =>
      if cdEntry.2.methods.contains mname then ([], [])
      else ([], [⟨action, cn, mname⟩])
    | none => ([], [])

/-! ### ActionCable broadcast validator -/

/-- A broadcast call found in a channel/job file's AST. -/
structure Broadcast where
  typeField : Option (List Char)
  stream : Option (List Char)
deriving DecidableEq, Repr

/-- The first non-empty plain-string part of a `dstr` node's children. -/
def firstNonemptyStr : List Ast → Option (List Char)
  | [] => none
  | .str s :: rest => if !s.isEmpty then some s else firstNonemptyStr rest
  | _ :: rest => firstNonemptyStr rest

/-- Embedding of `extract_string_from_node`: a plain string, or the first static part
of an interpolated string. -/
def extractStringFromNode : Ast → Option (List Char)
  | .str s => some s
  | .dstr parts => firstNonemptyStr parts
  | _ => none

/-- Embedding of `is_actioncable_broadcast?`: the call chain
`ActionCable.server.broadcast(...)`. -/
def isActioncableBroadcast : Ast → Bool
  | .send (some (.send (some (.constN _ cname)) m _)) bm _ =>
    bm == "broadcast".toList && m == "server".toList && cname == "ActionCable".toList
  | _ => false

/-- Embedding of `extract_broadcast_stream_name`: a literal stream, the static prefix
of an interpolated stream, or a local-variable reference resolved
against the tracked assignments. -/
def extractBroadcastStreamName (node : Ast) (localVars : List (List Char × List Char)) :
    Option (List Char) :=
  match node with
  | .send _ _ args =>
    match args.head? with
    | none => none
    | some first =>
      match first with
      | .str s => some s
      | .dstr parts => firstNonemptyStr parts
      | .lvar n => (localVars.find? (fun p => p.1 == n)).map (·.2)
      | _ => none
  | _ => none

/-- The pair scan of `extract_broadcast_type_from_node`: the first hash
pair keyed `type` (symbol or string) with a string value. -/
def typeFromPairs : List Ast → Option (List Char)
  | [] => none
  | .pair (.sym ks) (.str s) :: rest =>
    if ks == "type".toList then some s else typeFromPairs rest
  | .pair (.str ks) (.str s) :: rest =>
    if ks == "type".toList then some s else typeFromPairs rest
  | _ :: rest => typeFromPairs rest

/-- The argument scan of `extract_broadcast_type_from_node`. -/
def typeFromArgs : List Ast → Option (List Char)
  | [] => none
  | .hash pairs :: rest =>
    (match typeFromPairs pairs with
     | some t => some t
     | none => typeFromArgs rest)
  | _ :: rest => typeFromArgs rest

/-- Embedding of `extract_broadcast_type_from_node`. -/
def extractBroadcastTypeFromNode : Ast → Option (List Char)
  | .send _ _ args => typeFromArgs args
  | _ => none

/-- The local-variable tracking of `find_actioncable_broadcasts_in_ast`
(`local_vars[var_name] = extracted`; the later binding shadows, matching
`Hash#[]=` overwrite followed by `Hash#[]` lookup). -/
def updateVars (node : Ast) (vars : List (List Char × List Char)) :
    List (List Char × List Char) :=
  match node with
  | .lvasgn n (some v) =>
    (match extractStringFromNode v with
     | some s => (n, s) :: vars
     | none => vars)
  | _ => vars

/-- Fuel-indexed worker for `find_actioncable_broadcasts_in_ast`: the
`local_vars` hash is mutated in place in Ruby, so assignments seen
earlier in the pre-order traversal are visible to later broadcast
nodes — modelled by threading the variable list through the fold. -/
def findBroadcastsGo : Nat → Ast → List (List Char × List Char) →
    (List Broadcast × List (List Char × List Char))
  | 0, _, vars => ([], vars)
  | fuel + 1, node, vars =>
    let vars1 := updateVars node vars
    let self : List Broadcast :=
      if isActioncableBroadcast node then
        [⟨extractBroadcastTypeFromNode node, extractBroadcastStreamName node vars1⟩]
      else []
    node.childNodes.foldl
      (fun acc c =>
        let r := findBroadcastsGo fuel c acc.2
        (acc.1 ++ r.1, r.2))
      (self, vars1)

/-- Embedding of `find_actioncable_broadcasts_in_ast` (line numbers are not
modelled). -/
def findActioncableBroadcastsInAst (node : Ast) : List Broadcast :=
  (findBroadcastsGo node.size node []).1

/-- The `sub(/_\d+$/, '')` step of `infer_channel_name_from_stream`. -/
def stripTrailingDigitsAfterUnderscore (l : List Char) : List Char :=
  let r := l.reverse
  let ds := r.takeWhile Char.isDigit
  if !ds.isEmpty && (r.drop ds.length).head? == some '_' then
    ((r.drop ds.length).tail).reverse
  else l

/-- Ruby `chomp('_')`: drop one trailing underscore. -/
def chompUnderscore (l : List Char) : List Char :=
  if l.getLast? == some '_' then l.dropLast else l

/-- Embedding of `infer_channel_name_from_stream` on a present stream name:
`stream_name.sub(/_\d+$/, '').chomp('_')`. -/
def inferChannelNameFromStream (s : List Char) : List Char :=
  chompUnderscore (stripTrailingDigitsAfterUnderscore s)

/-- Split on single `-`/`_` separators (Ruby `split(/[-_]/)`; a possible
trailing empty segment, which Ruby drops, capitalizes to the empty
string and so cannot change the joined result). -/
def splitDashUnderscore : List Char → List (List Char)
  | [] => [[]]
  | c :: rest =>
    if c = '-' || c = '_' then [] :: splitDashUnderscore rest
    else
      match splitDashUnderscore rest with
      | [] => [[c]]
      | seg :: more => (c :: seg) :: more

/-- Ruby `String#capitalize`: upcase the first character, downcase the
rest. -/
def rubyCapitalize : List Char → List Char
  | [] => []
  | c :: rest => c.toUpper :: rest.map Char.toLower

/-- Embedding of `capitalize_type`: `type_string.split(/[-_]/).map(&:capitalize).join('')`. -/
def capitalizeType (t : List Char) : List Char :=
  ((splitDashUnderscore t).map rubyCapitalize).flatten

/-- The Finding kinds of the broadcast validator. -/
inductive BroadcastErrKind where
  | missingFrontendFile
  | missingType
  | missingHandler
deriving DecidableEq, Repr

/-- A broadcast Finding. -/
structure BroadcastFinding where
  stream : List Char
  channel : List Char
  typeField : Option (List Char)
  expectedMethod : Option (List Char)
  kind : BroadcastErrKind
deriving DecidableEq, Repr

/-- The per-broadcast body of the `broadcasts.each` loop of
`'validates that broadcast types match frontend handlers'`.
`frontendFileExists` abstracts the
`File.exist?("app/javascript/controllers/{channel}_controller.ts")`
check.  `next unless channel_name` never skips a present stream, since
`infer_channel_name_from_stream` returns a (truthy) string for every
non-nil stream name. -/
def checkBroadcast (b : Broadcast) (frontendFileExists : List Char → Bool)
    (controllerData : List (List Char × ControllerDescriptor)) : List BroadcastFinding :=
  match b.stream with
  | none => []
  | some s =>
    let channel := inferChannelNameFromStream s
    let controllerName := underscoreToDash channel
    if !frontendFileExists channel then
      [⟨s, channel, b.typeField,
        b.typeField.map (fun t => "handle".toList ++ capitalizeType t),
        .missingFrontendFile⟩]
    else
      match b.typeField with
      | none => [⟨s, channel, none, none, .missingType⟩]
      | some t =>
        let mname := "handle".toList ++ capitalizeType t
        let frontendMethods :=
          match controllerData.find? (fun p => p.1 == controllerName) with
          | some cdEntry => cdEntry.2.methods
          | none => []
        if frontendMethods.contains mname then []
        else [⟨s, channel, some t, some mname, .missingHandler⟩]

/-! ### Derived notions and concrete fixtures used by the statements -/

/-- The per-fragment contribution to the merge nesting counter:
`scan(/\bdo\b/).length - scan(/\bend\b/).length` of the
string-stripped code. -/
def nestDelta (code : List Char) : Int :=
  (countWord "do".toList (stripStrings code) : Int)
    - (countWord "end".toList (stripStrings code) : Int)

/-- The value of the merge nesting counter after consuming `bs`,
starting from `start`. -/
def runNesting (start : Int) (bs : List Frag) : Int :=
  start + (bs.map (fun b => nestDelta b.code)).sum

/-- Fixture: the AST of
`ActionCable.server.broadcast("chat_#{id}", { type: 'new-message', message: 'hi' })`
as produced by the Ruby parser. -/
def chatBroadcastAst : Ast :=
  .send (some (.send (some (.constN none "ActionCable".toList)) "server".toList []))
    "broadcast".toList
    [.dstr [.str "chat_".toList, .beginN [.lvar "id".toList]],
     .hash [.pair (.sym "type".toList) (.str "new-message".toList),
            .pair (.sym "message".toList) (.str "hi".toList)]]

/-- Fixture: metadata of a `chat` frontend controller whose method list
contains `handleNewMessage`. -/
def chatControllerMeta : ControllerDescriptor :=
  ⟨[], [], [], [], [], [], [], ["handleNewMessage".toList, "connect".toList]⟩

/-- Fixture: the same metadata with `handleNewMessage` removed. -/
def chatControllerMetaNoHandler : ControllerDescriptor :=
  ⟨[], [], [], [], [], [], [], ["connect".toList]⟩

/-! ## Theorems -/

theorem consumeBlocks_snd_length (nesting : Int) (l : List Frag) :
    (consumeBlocks nesting l).2.length ≤ l.length := by
  induction l generalizing nesting with
  | nil => simp [consumeBlocks]
  | cons b rest ih =>
    simp only [consumeBlocks]
    split
    · exact Nat.le_trans (ih _) (by simp)
    · simp

theorem mergeBlockPairsGo_succ (fuel : Nat) :
    ∀ blocks : List Frag, blocks.length ≤ fuel →
      mergeBlockPairsGo (fuel + 1) blocks = mergeBlockPairsGo fuel blocks := by
  induction fuel with
  | zero =>
    intro blocks h
    have hb : blocks = [] := List.length_eq_zero.mp (Nat.le_zero.mp h)
    subst hb
    rfl
  | succ f ih =>
    intro blocks h
    match blocks with
    | [] => rfl
    | b :: rest =>
      by_cases hc : (opensBlock b.code && !hasEndKeyword b.code) = true
      · simp only [mergeBlockPairsGo, hc, if_true]
        have hrem : (consumeBlocks 1 rest).2.length ≤ f :=
          Nat.le_trans (consumeBlocks_snd_length 1 rest) (by simpa using h)
        rw [ih _ hrem]
      · have hc' : (opensBlock b.code && !hasEndKeyword b.code) = false := by
          simpa using hc
        simp only [mergeBlockPairsGo, hc', Bool.false_eq_true, if_false]
        have hrest : rest.length ≤ f := by simpa using h
        rw [ih _ hrest]

theorem mergeBlockPairsGo_of_le (fuel : Nat) (blocks : List Frag)
    (h : blocks.length ≤ fuel) :
    mergeBlockPairsGo fuel blocks = mergeBlockPairs blocks := by
  unfold mergeBlockPairs
  obtain ⟨d, rfl⟩ : ∃ d, fuel = blocks.length + d := ⟨fuel - blocks.length, by omega⟩
  clear h
  induction d with
  | zero => rfl
  | succ d ih =>
    rw [show blocks.length + (d + 1) = (blocks.length + d) + 1 by omega]
    rw [mergeBlockPairsGo_succ (blocks.length + d) blocks (by omega), ih]

theorem runNesting_nil (n : Int) : runNesting n [] = n := by
  simp [runNesting]

theorem runNesting_cons (n : Int) (b : Frag) (bs : List Frag) :
    runNesting n (b :: bs) = runNesting (n + nestDelta b.code) bs := by
  simp [runNesting]
  omega

/-- Exact characterization of the merge-consumption loop: it consumes
the shortest prefix after which the running nesting counter is `≤ 0`
(all strictly shorter prefixes leave it positive), or the whole list if
the counter never drops to zero. -/
theorem consumeBlocks_spec (n : Int) (l : List Frag) :
    ∃ k, k ≤ l.length ∧
      (consumeBlocks n l).1 = (l.take k).map Frag.code ∧
      (consumeBlocks n l).2 = l.drop k ∧
      (∀ j, j < k → 0 < runNesting n (l.take j)) ∧
      (k < l.length → runNesting n (l.take k) ≤ 0) := by
  induction l generalizing n with
  | nil =>
    exact ⟨0, by simp [consumeBlocks]⟩
  | cons b rest ih =>
    by_cases hn : n > 0
    · obtain ⟨k, hk, h1, h2, h3, h4⟩ :=
        ih (n + (countWord "do".toList (stripStrings b.code) : Int)
          - (countWord "end".toList (stripStrings b.code) : Int))
      have hδ : n + (countWord "do".toList (stripStrings b.code) : Int)
          - (countWord "end".toList (stripStrings b.code) : Int)
          = n + nestDelta b.code := by
        simp [nestDelta]
        omega
      refine ⟨k + 1, by simpa using hk, ?_, ?_, ?_, ?_⟩
      · simp only [consumeBlocks, hn, if_true, List.take_succ_cons, List.map_cons]
        rw [h1]
      · simp only [consumeBlocks, hn, if_true, List.drop_succ_cons]
        rw [h2]
      · intro j hj
        match j with
        | 0 => simpa [runNesting] using hn
        | j' + 1 =>
          rw [List.take_succ_cons, runNesting_cons, ← hδ]
          exact h3 j' (by omega)
      · intro hlen
        rw [List.take_succ_cons, runNesting_cons, ← hδ]
        exact h4 (by simpa using hlen)
    · refine ⟨0, by simp, by simp [consumeBlocks, hn], by simp [consumeBlocks, hn],
        by simp, fun _ => ?_⟩
      simp only [List.take_zero, runNesting_nil]
      omega

/-- C2, as stated, is false at a concrete input: an opener followed by a
single non-closing fragment reaches the end of the list with the counter
still `1`, yet the output holds the **merged** fragment (opener plus the
consumed code), not the original unmerged fragment; moreover the loop
stops when the counter reaches `≤ 0`, not exactly `0` (second conjunct:
a fragment with two `end`s drives the counter from `1` to `-1` and
consumption still stops there). -/
theorem claim_C2_counterexample :
    (mergeBlockPairs [⟨true, "items.each do |x|".toList, false⟩, ⟨true, "x".toList, false⟩]
      = [⟨true, "items.each do |x|\nx".toList, true⟩])
    ∧ (∀ f ∈ mergeBlockPairs
        [⟨true, "items.each do |x|".toList, false⟩, ⟨true, "x".toList, false⟩],
        f.code ≠ "items.each do |x|".toList ∧ f.code ≠ "x".toList)
    ∧ consumeBlocks 1 [⟨true, "end end".toList, false⟩, ⟨true, "y".toList, false⟩]
        = (["end end".toList], [⟨true, "y".toList, false⟩])
    ∧ runNesting 1 [⟨true, "end end".toList, false⟩] = -1 := by
  refine ⟨by decide, by decide, by decide, by decide⟩

/-- C2 (amended): when a block-opening fragment starts a merge, the
merger consumes the shortest following prefix after which the nesting
counter (seeded at `1`) is `≤ 0`; if the end of the fragment list is
reached with the counter still positive, the whole remainder has been
consumed and the merger still emits the single merged fragment spanning
the opener and everything consumed (the original unmerged fragment is
not restored), without crashing (the merge is a total function). -/
theorem claim_C2_theorem (b : Frag) (rest : List Frag)
    (hopen : (opensBlock b.code && !hasEndKeyword b.code) = true) :
    ∃ k, k ≤ rest.length ∧
      (consumeBlocks 1 rest).1 = (rest.take k).map Frag.code ∧
      (consumeBlocks 1 rest).2 = rest.drop k ∧
      (∀ j, j < k → 0 < runNesting 1 (rest.take j)) ∧
      (k < rest.length → runNesting 1 (rest.take k) ≤ 0) ∧
      mergeBlockPairs (b :: rest)
        = ⟨b.output, joinNewline b.code ((rest.take k).map Frag.code), true⟩
          :: mergeBlockPairs (rest.drop k) := by
  obtain ⟨k, hk, h1, h2, h3, h4⟩ := consumeBlocks_spec 1 rest
  refine ⟨k, hk, h1, h2, h3, h4, ?_⟩
  show mergeBlockPairsGo (b :: rest).length (b :: rest) = _
  simp only [List.length_cons, mergeBlockPairsGo, hopen, if_true]
  rw [h1, h2, mergeBlockPairsGo_of_le rest.length (rest.drop k) (by simp)]

theorem claim_C2_witness :
    ∃ k, k ≤ ([⟨true, "x".toList, false⟩] : List Frag).length ∧
      (consumeBlocks 1 [⟨true, "x".toList, false⟩]).1
        = (([⟨true, "x".toList, false⟩] : List Frag).take k).map Frag.code ∧
      (consumeBlocks 1 [⟨true, "x".toList, false⟩]).2
        = ([⟨true, "x".toList, false⟩] : List Frag).drop k ∧
      (∀ j, j < k → 0 < runNesting 1 (([⟨true, "x".toList, false⟩] : List Frag).take j)) ∧
      (k < ([⟨true, "x".toList, false⟩] : List Frag).length →
        runNesting 1 (([⟨true, "x".toList, false⟩] : List Frag).take k) ≤ 0) ∧
      mergeBlockPairs [⟨true, "items.each do |x|".toList, false⟩, ⟨true, "x".toList, false⟩]
        = ⟨true, joinNewline "items.each do |x|".toList
            ((([⟨true, "x".toList, false⟩] : List Frag).take k).map Frag.code), true⟩
          :: mergeBlockPairs (([⟨true, "x".toList, false⟩] : List Frag).drop k) :=
  claim_C2_theorem ⟨true, "items.each do |x|".toList, false⟩
    [⟨true, "x".toList, false⟩] (by decide)

/-- C1, as stated, is false at a concrete input: a fragment that passes
the keyword pre-filter but whose preprocessed code fails to parse makes
`find_stimulus_targets` / `find_stimulus_actions` / `find_stimulus_values`
raise out of the validator (the calls to `Parser::CurrentRuby.parse` in
those three methods carry no `rescue` — "fail fast on errors"), instead
of skipping the fragment. -/
theorem claim_C1_counterexample :
    findStimulusTargets (fun _ => none) [⟨true, "data target x".toList, false⟩]
      "foo".toList "panel".toList = .error ()
    ∧ findStimulusActions (fun _ => none) [⟨true, "data action x".toList, false⟩]
        none = .error ()
    ∧ findStimulusValues (fun _ => none) [⟨true, "data value x".toList, false⟩]
        "foo".toList "bar".toList = .error () :=
  ⟨rfl, rfl, rfl⟩

/-- C1 (amended): a fragment-level parse failure is **not** caught in
`find_stimulus_targets`, `find_stimulus_actions` or
`find_stimulus_values`: whenever any fragment passing the respective
keyword pre-filter has unparseable (preprocessed) code, the whole query
aborts with the parse error rather than skipping the fragment.  (Only
the controller-presence fragment scans of the validator wrap the parse
in a `rescue` and skip the fragment — see `controllerExistsInFile`.) -/
theorem claim_C1_theorem (parse : List Char → Option Ast) (blocks : List Frag)
    (cn tn vn : List Char) (cno : Option (List Char)) :
    (∀ b ∈ blocks, shouldParseForTargets b.code cn tn = true →
      parse (preprocessErbCode b.code) = none →
      findStimulusTargets parse blocks cn tn = .error ())
    ∧ (∀ b ∈ blocks, shouldParseForActions b.code = true →
      parse (preprocessErbCode b.code) = none →
      findStimulusActions parse blocks cno = .error ())
    ∧ (∀ b ∈ blocks, shouldParseForValues b.code cn vn = true →
      parse (preprocessErbCode b.code) = none →
      findStimulusValues parse blocks cn vn = .error ()) := by
  refine ⟨?_, ?_, ?_⟩
  · intro b hb hkeep hfail
    induction blocks with
    | nil => cases hb
    | cons hd rest ih =>
      rcases List.mem_cons.mp hb with hhd | hrest
      · subst hhd
        simp only [findStimulusTargets, hkeep, if_true, hfail]
      · simp only [findStimulusTargets]
        split
        · rw [show findStimulusTargets parse rest cn tn = .error () from ih hrest]
          cases hp : parse (preprocessErbCode hd.code) <;> simp [hp]
        · exact ih hrest
  · intro b hb hkeep hfail
    induction blocks with
    | nil => cases hb
    | cons hd rest ih =>
      rcases List.mem_cons.mp hb with hhd | hrest
      · subst hhd
        simp only [findStimulusActions, hkeep, if_true, hfail]
      · simp only [findStimulusActions]
        split
        · rw [show findStimulusActions parse rest cno = .error () from ih hrest]
          cases hp : parse (preprocessErbCode hd.code) <;> simp [hp]
        · exact ih hrest
  · intro b hb hkeep hfail
    induction blocks with
    | nil => cases hb
    | cons hd rest ih =>
      rcases List.mem_cons.mp hb with hhd | hrest
      · subst hhd
        simp only [findStimulusValues, hkeep, if_true, hfail]
      · simp only [findStimulusValues]
        split
        · rw [show findStimulusValues parse rest cn vn = .error () from ih hrest]
          cases hp : parse (preprocessErbCode hd.code) <;> simp [hp]
        · exact ih hrest

theorem claim_C1_witness :
    findStimulusTargets (fun _ => none)
      [⟨true, "x".toList, false⟩, ⟨false, "div data target y".toList, false⟩]
      "foo".toList "panel".toList = .error () :=
  (claim_C1_theorem (fun _ => none)
      [⟨true, "x".toList, false⟩, ⟨false, "div data target y".toList, false⟩]
      "foo".toList "panel".toList "bar".toList none).1
    ⟨false, "div data target y".toList, false⟩ (by simp) (by decide) rfl

/-- C3 (confirmed): the fragment-based check of the target validator
treats **any** in-file match of the AST target query as in-scope — when
`find_stimulus_targets` returns a non-empty match list, the per-target
classification yields no Finding (neither missing nor out-of-scope),
for every document and controller element, in particular when the
matching fragment lies outside the controller element's subtree. -/
theorem claim_C3_theorem (parse : List Char → Option Ast) (blocks : List Frag)
    (doc ce : Elem) (cn t : List Char) (l : List (Frag × TargetMatch))
    (hok : findStimulusTargets parse blocks cn t = .ok l) (hne : l ≠ []) :
    classifyTarget doc ce cn t l = none := by
  have hempty : l.isEmpty = false := by
    cases l with
    | nil => exact absurd rfl hne
    | cons a as => rfl
  simp [classifyTarget, hempty]

theorem claim_C3_witness :
    classifyTarget (.mk 0 [] []) (.mk 1 [] []) "foo".toList "panel".toList
      [(⟨true, "div data target".toList, false⟩,
        ⟨true, "foo".toList, "panel".toList⟩)] = none :=
  claim_C3_theorem
    (fun _ => some (.hash [.pair (.str "foo-target".toList) (.str "panel".toList)]))
    [⟨true, "div data target".toList, false⟩]
    (.mk 0 [] []) (.mk 1 [] []) "foo".toList "panel".toList
    [(⟨true, "div data target".toList, false⟩, ⟨true, "foo".toList, "panel".toList⟩)]
    rfl (by simp)

/-- Embedding of `classifyTarget` returns no Finding or one of the two Finding shapes
for the queried controller/target pair. -/
theorem classifyTarget_eq (doc ce : Elem) (cn t : List Char)
    (erbTargets : List (Frag × TargetMatch)) :
    classifyTarget doc ce cn t erbTargets = none
    ∨ classifyTarget doc ce cn t erbTargets = some ⟨cn, t, .outOfScope⟩
    ∨ classifyTarget doc ce cn t erbTargets = some ⟨cn, t, .missing⟩ := by
  unfold classifyTarget
  dsimp only
  split
  · exact Or.inl rfl
  · split
    · exact Or.inr (Or.inl rfl)
    · exact Or.inr (Or.inr rfl)

/-- Embedding of `classifyTarget` only reports the target it was asked about. -/
theorem classifyTarget_target (doc ce : Elem) (cn t : List Char)
    (erbTargets : List (Frag × TargetMatch)) (f : TargetFinding)
    (h : classifyTarget doc ce cn t erbTargets = some f) : f.target = t := by
  rcases classifyTarget_eq doc ce cn t erbTargets with he | he | he <;>
    rw [he] at h
  · cases h
  · cases Option.some.inj h
    rfl
  · cases Option.some.inj h
    rfl

/-- C8 (confirmed): a target listed in the controller's
`targetsWithSkip` (skip directive) or `optionalTargets` metadata is
`next`ed over before any check runs, so the target validator emits no
finding of any kind for it — whatever the markup and fragments say. -/
theorem claim_C8_theorem (doc ce : Elem) (cn : List Char)
    (cd : ControllerDescriptor) (erbT : List Char → List (Frag × TargetMatch))
    (t : List Char) (h : t ∈ cd.optionalTargets ∨ t ∈ cd.targetsWithSkip) :
    ∀ f ∈ validateTargets doc ce cn cd erbT, f.target ≠ t := by
  intro f hf
  rcases List.mem_flatMap.mp hf with ⟨t', _, hbody⟩
  by_cases h1 : cd.optionalTargets.contains t' = true
  · rw [if_pos h1] at hbody
    cases hbody
  rw [if_neg h1] at hbody
  by_cases h2 : cd.targetsWithSkip.contains t' = true
  · rw [if_pos h2] at hbody
    cases hbody
  rw [if_neg h2] at hbody
  intro hft
  rcases hc : classifyTarget doc ce cn t' (erbT t') with _ | f'
  · rw [hc] at hbody
    cases hbody
  · rw [hc] at hbody
    have hf' : f = f' := List.mem_singleton.mp hbody
    have htt : t' = t := by
      rw [← hft, hf', classifyTarget_target doc ce cn t' (erbT t') f' hc]
    subst htt
    rcases h with hmem | hmem
    · exact h1 (List.elem_eq_true_of_mem hmem)
    · exact h2 (List.elem_eq_true_of_mem hmem)

theorem claim_C8_witness :
    (⟨"foo".toList, "row".toList, .missing⟩ : TargetFinding).target ≠ "panel".toList :=
  claim_C8_theorem (.mk 0 [] []) (.mk 1 [] []) "foo".toList
    ⟨["panel".toList, "row".toList], [], ["panel".toList], [], [], [], [], []⟩
    (fun _ => []) "panel".toList (Or.inr (by simp))
    ⟨"foo".toList, "row".toList, .missing⟩ (by decide)

/-- C9 (confirmed): the direct and descendant target checks use
substring containment (`include?` / the CSS `*=` operator), not exact
token equality — any `data-{controller}-target` value on the controller
element or a descendant that merely **contains** the required target as
a substring classifies it found-in-scope (so `itemRow` satisfies a
required target `item`, as the witness instantiates). -/
theorem claim_C9_theorem (doc ce : Elem) (cn t : List Char)
    (erbTargets : List (Frag × TargetMatch)) :
    (∀ v, getAttr ce (targetAttrName cn) = some v → containsSub t v = true →
      classifyTarget doc ce cn t erbTargets = none)
    ∧ (∀ d ∈ ce.descendants, ∀ v, getAttr d (targetAttrName cn) = some v →
      containsSub t v = true →
      classifyTarget doc ce cn t erbTargets = none) := by
  constructor
  · intro v hv hsub
    simp [classifyTarget, hv, hsub]
  · intro d hd v hv hsub
    have hmem : d ∈ cssAttrSubstr ce (targetAttrName cn) t := by
      refine List.mem_filter.mpr ⟨hd, ?_⟩
      simp [hv, hsub]
    have hne : (cssAttrSubstr ce (targetAttrName cn) t).isEmpty = false := by
      rcases he : cssAttrSubstr ce (targetAttrName cn) t with _ | ⟨a, as⟩
      · rw [he] at hmem
        cases hmem
      · rfl
    simp [classifyTarget, hne]

theorem claim_C9_witness :
    classifyTarget (.mk 0 [] [])
      (.mk 1 [("data-foo-target".toList, "itemRow".toList)] [])
      "foo".toList "item".toList [] = none :=
  (claim_C9_theorem (.mk 0 [] [])
      (.mk 1 [("data-foo-target".toList, "itemRow".toList)] [])
      "foo".toList "item".toList []).1
    "itemRow".toList (by decide) (by decide)

/-- C10 (confirmed): the outlet validator reads the
`data-{controller}-{kebab(outlet)}-outlet` attribute **only** from the
controller element itself; whenever that element lacks the attribute, a
Finding (`missing_outlet`, or `wrong_attribute_name` for the `-value`
typo) is emitted for the outlet — regardless of any descendant or other
element carrying the attribute (the witness places it on a child). -/
theorem claim_C10_theorem (ce : Elem) (cn : List Char)
    (cd : ControllerDescriptor) (cssMatchExists : List Char → Bool)
    (o : List Char) (ho : o ∈ cd.outlets)
    (hno : getAttr ce (outletAttrName cn o) = none) :
    ∃ f ∈ validateOutlets ce cn cd cssMatchExists, f.outlet = o ∧
      (f.kind = .missingOutlet ∨ f.kind = .wrongAttributeName) := by
  by_cases hv : hasAttr ce (outletAttrName cn o ++ "-value".toList) = true
  · refine ⟨⟨cn, o, .wrongAttributeName⟩, ?_, rfl, Or.inr rfl⟩
    refine List.mem_flatMap.mpr ⟨o, ho, ?_⟩
    dsimp only
    rw [hno, if_pos hv]
    exact List.mem_singleton.mpr rfl
  · refine ⟨⟨cn, o, .missingOutlet⟩, ?_, rfl, Or.inl rfl⟩
    refine List.mem_flatMap.mpr ⟨o, ho, ?_⟩
    dsimp only
    rw [hno, if_neg hv]
    exact List.mem_singleton.mpr rfl

theorem claim_C10_witness :
    ∃ f ∈ validateOutlets
      (.mk 0 [] [.mk 1 [("data-foo-modal-outlet".toList,
        "[data-controller=m]".toList)] []])
      "foo".toList ⟨[], [], [], [], [], [], ["modal".toList], []⟩ (fun _ => false),
      f.outlet = "modal".toList ∧
        (f.kind = .missingOutlet ∨ f.kind = .wrongAttributeName) :=
  claim_C10_theorem
    (.mk 0 [] [.mk 1 [("data-foo-modal-outlet".toList,
      "[data-controller=m]".toList)] []])
    "foo".toList ⟨[], [], [], [], [], [], ["modal".toList], []⟩ (fun _ => false)
    "modal".toList (by simp) rfl

/-- Dispatch shape of the `all_actions.each` loop: unresolved scope
emits exactly one scope Finding, typed by `controller_exists_in_file`,
and skips the method-existence check; resolved scope emits no scope
Finding and runs only the method check. -/
theorem processAction_scope_dispatch (doc : Elem) (parse : List Char → Option Ast)
    (blocks : List Frag) (path : List Char) (parents : List (List Char))
    (src : ActionSource) (actionElem : Option (Elem × List Elem))
    (erbScope : Bool) (cdata : List (List Char × ControllerDescriptor))
    (action cn mname : List Char) :
    (resolveActionScope path parents src actionElem erbScope cn = false →
      processAction doc parse blocks path parents src actionElem erbScope cdata
          action cn mname
        = ([⟨action, cn,
            if controllerExistsInFile doc parse blocks cn then .outOfScope
            else .missingController⟩], []))
    ∧ (resolveActionScope path parents src actionElem erbScope cn = true →
      processAction doc parse blocks path parents src actionElem erbScope cdata
          action cn mname
        = ([],
          match cdata.find? (fun p => p.1 == cn) with
          | some cdEntry =>
            if cdEntry.2.methods.contains mname then [] else [⟨action, cn, mname⟩]
          | none => [])) := by
  constructor
  · intro h
    simp [processAction, h]
  · intro h
    simp only [processAction, h, Bool.not_true, Bool.false_eq_true, if_false]
    rcases hfind : List.find? (fun p => p.1 == cn) cdata with _ | cdEntry
    · rw [hfind]
    · rw [hfind]
      dsimp only
      split <;> rfl

/-- C4 (code_bug): an action for controller `foo` whose scope does not
resolve, in a view whose markup declares no controller and whose only
declaration of `foo` is an ERB fragment that parses to the hash
`controller: "foo"` — the first conjunct shows that the file's own
presence query `contains_controller_in_ast?` answers true on that AST —
is reported `missing_controller`, not `out_of_scope` as the claim
requires.  The fragment scan of `controller_exists_in_file` calls
`contains_controller_in_ast?` bare (source line 1335) instead of through
`erb_parser.send` as the adjacent `preprocess_erb_code` call and the
coverage-statistics scan at line 1574 do, so it raises `NoMethodError`,
which the scan's bare `rescue` swallows: a fragment-declared controller
never sets the exists-in-file flag. -/
theorem claim_C4_theorem :
    containsControllerInAst
        (.hash [.pair (.str "controller".toList) (.str "foo".toList)])
        "foo".toList = true
    ∧ processAction (.mk 0 [] [])
        (fun _ => some (.hash [.pair (.str "controller".toList) (.str "foo".toList)]))
        [⟨true, "div data controller foo".toList, false⟩]
        "app/views/items/index.html.erb".toList [] .erbAst none false
        [("foo".toList, chatControllerMeta)]
        "click->foo#toggle".toList "foo".toList "toggle".toList
      = ([⟨"click->foo#toggle".toList, "foo".toList, .missingController⟩], []) :=
  ⟨by decide, by decide⟩

/-- C5 (confirmed): for
`ActionCable.server.broadcast("chat_#{id}", { type: 'new-message', ... })`
the validator extracts the static prefix `chat_` of the interpolated
stream, strips the trailing underscore to infer channel `chat`, and
expects `handleNewMessage` in the `chat` controller's metadata: with the
method present it emits zero findings for the call, and with it absent
exactly one `missing_handler` finding naming `handleNewMessage`. -/
theorem claim_C5_theorem :
    findActioncableBroadcastsInAst chatBroadcastAst
      = [⟨some "new-message".toList, some "chat_".toList⟩]
    ∧ inferChannelNameFromStream "chat_".toList = "chat".toList
    ∧ "handle".toList ++ capitalizeType "new-message".toList = "handleNewMessage".toList
    ∧ checkBroadcast ⟨some "new-message".toList, some "chat_".toList⟩ (fun _ => true)
        [("chat".toList, chatControllerMeta)] = []
    ∧ checkBroadcast ⟨some "new-message".toList, some "chat_".toList⟩ (fun _ => true)
        [("chat".toList, chatControllerMetaNoHandler)]
      = [⟨"chat_".toList, "chat".toList, some "new-message".toList,
          some "handleNewMessage".toList, .missingHandler⟩] :=
  ⟨by decide, by decide, by decide, by decide, by decide⟩

/-- C7 (confirmed): the action query reports a match exactly for the
whitespace-separated tokens of a string value under a literal `action`
key (string or symbol) that parse against
`[event->]controller#method[@option]` and pass the optional controller
filter — tokens failing the pattern are dropped, and with a filter only
tokens whose parsed controller equals it are returned. -/
theorem claim_C7_theorem (pairs : List Ast) (cn : Option (List Char)) (m : ActionMatch) :
    m ∈ findActionsInHash pairs cn ↔
      ∃ k s, Ast.pair k (Ast.str s) ∈ pairs ∧ k.isActionKey = true ∧
        m.actionString = s ∧
        ∃ tok ∈ scanTokens s, parseActionToken tok = some m.parsedAction ∧
          controllerFilter cn m.parsedAction = true := by
  unfold findActionsInHash
  rw [List.mem_flatMap]
  constructor
  · rintro ⟨pairNode, hmem, hbody⟩
    rcases pairNode with pr | ⟨k, v⟩ | ⟨r, mth, args⟩ | s | s | p | n | ⟨n, v⟩ | ⟨r, n⟩ | p <;>
      try (exact absurd hbody (List.not_mem_nil m))
    dsimp only at hbody
    by_cases hkey : k.isActionKey = true
    · rw [if_pos hkey] at hbody
      rcases v with pr | ⟨k2, v2⟩ | ⟨r, mth, args⟩ | s | s | p | n | ⟨n, v2⟩ | ⟨r, n⟩ | p <;>
        try (exact absurd hbody (List.not_mem_nil m))
      rcases List.mem_filterMap.mp hbody with ⟨a, ha, heq⟩
      by_cases hfil : controllerFilter cn a = true
      · rw [if_pos hfil] at heq
        cases Option.some.inj heq
        rcases List.mem_filterMap.mp ha with ⟨tok, htok, hparse⟩
        exact ⟨k, s, hmem, hkey, rfl, tok, htok, hparse, hfil⟩
      · rw [if_neg hfil] at heq
        cases heq
    · rw [if_neg hkey] at hbody
      exact absurd hbody (List.not_mem_nil m)
  · rintro ⟨k, s, hmem, hkey, hstr, tok, htok, hparse, hfilter⟩
    refine ⟨Ast.pair k (Ast.str s), hmem, ?_⟩
    dsimp only
    rw [if_pos hkey]
    refine List.mem_filterMap.mpr ⟨m.parsedAction, ?_, ?_⟩
    · exact List.mem_filterMap.mpr ⟨tok, htok, hparse⟩
    · rw [if_pos hfilter]
      cases m
      cases hstr
      rfl

theorem stripQuote_length {q : Char} : ∀ {l r : List Char},
    stripQuote q l = some r → r.length < l.length := by
  intro l
  induction l with
  | nil => intro r h; cases h
  | cons c rest ih =>
    intro r h
    simp only [stripQuote] at h
    split at h
    · cases h
      simp
    · exact Nat.lt_trans (ih h) (by simp)

theorem stripQuote_eq_none (q : Char) : ∀ l : List Char,
    q ∉ l → stripQuote q l = none := by
  intro l
  induction l with
  | nil => intro _; rfl
  | cons c rest ih =>
    intro h
    simp only [stripQuote]
    rw [if_neg (by intro hc; exact h (hc ▸ List.mem_cons_self c rest))]
    exact ih (fun hm => h (List.mem_cons_of_mem c hm))

theorem stripQuote_append (q : Char) (s : List Char) (hq : q ∉ s) :
    ∀ l : List Char,
      stripQuote q (l ++ s) =
        match stripQuote q l with
        | some r => some (r ++ s)
        | none => none := by
  intro l
  induction l with
  | nil =>
    simp only [List.nil_append, stripQuote]
    rw [stripQuote_eq_none q s hq]
  | cons c rest ih =>
    simp only [List.cons_append, stripQuote]
    split
    · rfl
    · exact ih

theorem stripStringsGo_succ (fuel : Nat) :
    ∀ l : List Char, l.length ≤ fuel →
      stripStringsGo (fuel + 1) l = stripStringsGo fuel l := by
  induction fuel with
  | zero =>
    intro l h
    have hl : l = [] := List.length_eq_zero.mp (Nat.le_zero.mp h)
    subst hl
    rfl
  | succ f ih =>
    intro l h
    match l with
    | [] => rfl
    | c :: rest =>
      have hrest : rest.length ≤ f := by simpa using h
      simp only [stripStringsGo]
      split
      · rcases hq : stripQuote c rest with _ | after
        · rw [ih rest hrest]
        · exact ih after (Nat.le_of_lt (Nat.lt_of_lt_of_le (stripQuote_length hq) hrest))
      · rw [ih rest hrest]

theorem stripStringsGo_of_le (fuel : Nat) (l : List Char) (h : l.length ≤ fuel) :
    stripStringsGo fuel l = stripStrings l := by
  unfold stripStrings
  obtain ⟨d, rfl⟩ : ∃ d, fuel = l.length + d := ⟨fuel - l.length, by omega⟩
  clear h
  induction d with
  | zero => rfl
  | succ d ih =>
    rw [show l.length + (d + 1) = (l.length + d) + 1 by omega]
    rw [stripStringsGo_succ (l.length + d) l (by omega), ih]

/-- Recursion equation for `stripStrings`. -/
theorem stripStrings_cons (c : Char) (rest : List Char) :
    stripStrings (c :: rest) =
      if c = squote ∨ c = dquote then
        match stripQuote c rest with
        | some after => stripStrings after
        | none => c :: stripStrings rest
      else c :: stripStrings rest := by
  show stripStringsGo (rest.length + 1) (c :: rest) = _
  by_cases hc : c = squote ∨ c = dquote
  · rw [if_pos hc]
    simp only [stripStringsGo, decide_eq_true_eq]
    rw [if_pos (by simpa using hc)]
    rcases hq : stripQuote c rest with _ | after
    · rw [stripStringsGo_of_le rest.length rest (Nat.le_refl _)]
    · exact stripStringsGo_of_le rest.length after
        (Nat.le_of_lt (stripQuote_length hq))
  · rw [if_neg hc]
    simp only [stripStringsGo, decide_eq_true_eq]
    rw [if_neg (by simpa using hc)]
    rw [stripStringsGo_of_le rest.length rest (Nat.le_refl _)]

theorem stripStrings_of_no_quote : ∀ l : List Char,
    (∀ c ∈ l, ¬(c = squote ∨ c = dquote)) → stripStrings l = l := by
  intro l
  induction l with
  | nil => intro _; rfl
  | cons c rest ih =>
    intro h
    rw [stripStrings_cons, if_neg (h c (List.mem_cons_self c rest))]
    rw [ih (fun d hd => h d (List.mem_cons_of_mem c hd))]

/-- Appending quote-free text commutes with string-literal stripping. -/
theorem stripStrings_append (s : List Char)
    (hs : ∀ c ∈ s, ¬(c = squote ∨ c = dquote)) :
    ∀ (n : Nat) (l : List Char), l.length ≤ n →
      stripStrings (l ++ s) = stripStrings l ++ s := by
  intro n
  induction n with
  | zero =>
    intro l h
    have hl : l = [] := List.length_eq_zero.mp (Nat.le_zero.mp h)
    subst hl
    simpa using stripStrings_of_no_quote s hs
  | succ m ih =>
    intro l h
    match l with
    | [] => simpa using stripStrings_of_no_quote s hs
    | c :: rest =>
      have hrest : rest.length ≤ m := by simpa using h
      rw [List.cons_append, stripStrings_cons, stripStrings_cons]
      by_cases hc : c = squote ∨ c = dquote
      · rw [if_pos hc, if_pos hc]
        have hqs : c ∉ s := by
          intro hmem
          exact hs c hmem hc
        rw [stripQuote_append c s hqs rest]
        rcases hq : stripQuote c rest with _ | after
        · rw [List.cons_append]
          rw [ih rest hrest]
        · exact ih after
            (Nat.le_of_lt (Nat.lt_of_lt_of_le (stripQuote_length hq) hrest))
      · rw [if_neg hc, if_neg hc, List.cons_append, ih rest hrest]

theorem isPrefixOf_nil_left (m : List Char) : ([] : List Char).isPrefixOf m = true := by
  cases m <;> rfl

theorem isPrefixOf_self_append (w s : List Char) : w.isPrefixOf (w ++ s) = true := by
  induction w with
  | nil => exact isPrefixOf_nil_left s
  | cons a w' ih => simp [List.isPrefixOf, ih]

theorem isPrefixOf_append_ext (w : List Char) (s : List Char) :
    ∀ l : List Char, w.isPrefixOf l = true → w.isPrefixOf (l ++ s) = true := by
  induction w with
  | nil => intro l _; exact isPrefixOf_nil_left (l ++ s)
  | cons a w' ih =>
    intro l h
    match l with
    | [] => simp [List.isPrefixOf] at h
    | c :: rest =>
      simp only [List.isPrefixOf, Bool.and_eq_true] at h ⊢
      exact ⟨h.1, ih rest h.2⟩

theorem isPrefixOf_len_le (w : List Char) :
    ∀ l : List Char, w.isPrefixOf l = true → w.length ≤ l.length := by
  induction w with
  | nil => intro l _; simp
  | cons a w' ih =>
    intro l h
    match l with
    | [] => simp [List.isPrefixOf] at h
    | c :: rest =>
      simp only [List.isPrefixOf, Bool.and_eq_true] at h
      simpa using ih rest h.2

/-- A standalone word sitting after an appended newline is always found,
provided only non-word text (or nothing) follows it. -/
theorem containsWordFrom_newline_word (w s : List Char) (hw : w ≠ [])
    (hba : boundaryAfter s = true) :
    ∀ (l : List Char) (prev : Option Char),
      containsWordFrom w prev (l ++ '\n' :: (w ++ s)) = true := by
  intro l
  induction l with
  | nil =>
    intro prev
    rw [List.nil_append]
    simp only [containsWordFrom, Bool.or_eq_true]
    right
    match w, hw with
    | a :: w', _ =>
      simp only [List.cons_append, containsWordFrom, Bool.or_eq_true]
      left
      refine (Bool.and_eq_true _ _).mpr ⟨(Bool.and_eq_true _ _).mpr ⟨by decide, ?_⟩, ?_⟩
      · exact isPrefixOf_self_append (a :: w') s
      · have : ((a :: w') ++ s).drop (a :: w').length = s := List.drop_left _ _
        simpa [this] using hba
  | cons c rest ih =>
    intro prev
    rw [List.cons_append]
    simp only [containsWordFrom, Bool.or_eq_true]
    right
    exact ih (some c)

/-- A word-boundary match survives appending text that starts at a word
boundary. -/
theorem containsWordFrom_append (w s : List Char) (hba : boundaryAfter s = true) :
    ∀ (l : List Char) (prev : Option Char),
      containsWordFrom w prev l = true → containsWordFrom w prev (l ++ s) = true := by
  intro l
  induction l with
  | nil =>
    intro prev h
    simp [containsWordFrom] at h
  | cons c rest ih =>
    intro prev h
    rw [List.cons_append]
    simp only [containsWordFrom, Bool.or_eq_true] at h ⊢
    rcases h with hmatch | hrec
    · left
      rcases (Bool.and_eq_true _ _).mp hmatch with ⟨hbp, haft⟩
      rcases (Bool.and_eq_true _ _).mp hbp with ⟨hb, hpre⟩
      have hlen : w.length ≤ (c :: rest).length := isPrefixOf_len_le w _ hpre
      refine (Bool.and_eq_true _ _).mpr ⟨(Bool.and_eq_true _ _).mpr ⟨hb, ?_⟩, ?_⟩
      · exact isPrefixOf_append_ext w s _ hpre
      · have hre : List.drop w.length (c :: (rest ++ s))
            = List.drop w.length (c :: rest) ++ s := by
          rw [← List.cons_append]
          exact List.drop_append_of_le_length hlen
        rw [hre]
        rcases hdrop : (c :: rest).drop w.length with _ | ⟨d, ds⟩
        · rw [hdrop] at haft
          simpa using hba
        · rw [hdrop] at haft
          simpa [boundaryAfter] using haft
    · right
      exact ih (some c) hrec

theorem containsSub_append_left (w s : List Char) :
    ∀ l : List Char, containsSub w l = true → containsSub w (l ++ s) = true := by
  intro l
  induction l with
  | nil =>
    intro h
    simp only [containsSub] at h
    have hw : w = [] := by simpa using h
    subst hw
    cases s with
    | nil => rfl
    | cons c cs => simp [containsSub]
  | cons c rest ih =>
    intro h
    rw [List.cons_append]
    simp only [containsSub, Bool.or_eq_true] at h ⊢
    rcases h with hpre | hrec
    · left
      exact isPrefixOf_append_ext w s _ hpre
    · right
      exact ih hrec

theorem isPrefixOf_concat (a : Char) :
    ∀ (w m : List Char), w.isPrefixOf (m ++ [a]) = true →
      w.isPrefixOf m = true ∨ w.getLast? = some a := by
  intro w
  induction w with
  | nil =>
    intro m _
    left
    exact isPrefixOf_nil_left m
  | cons b w' ih =>
    intro m h
    match m with
    | [] =>
      simp only [List.nil_append] at h
      have hb : b = a ∧ w'.isPrefixOf [] = true := by
        simpa [List.isPrefixOf] using h
      have hw' : w' = [] := by
        cases w' with
        | nil => rfl
        | cons x xs => simp [List.isPrefixOf] at hb
      right
      rw [hb.1, hw']
      rfl
    | c :: m' =>
      rw [List.cons_append] at h
      have hbc : b = c ∧ w'.isPrefixOf (m' ++ [a]) = true := by
        simpa [List.isPrefixOf] using h
      rcases ih m' hbc.2 with hpre | hlast
      · left
        simp [List.isPrefixOf, hbc.1, hpre]
      · right
        cases w' with
        | nil => simp [List.getLast?] at hlast
        | cons x xs => simpa [List.getLast?_cons_cons] using hlast

theorem containsSub_concat (w : List Char) (a : Char) :
    ∀ m : List Char, containsSub w (m ++ [a]) = true →
      containsSub w m = true ∨ w.getLast? = some a := by
  intro m
  induction m with
  | nil =>
    intro h
    simp only [List.nil_append, containsSub, Bool.or_eq_true] at h
    rcases h with hpre | hnil
    · rcases isPrefixOf_concat a w [] (by simpa using hpre) with hp | hl
      · left
        have hw : w = [] := by
          cases w with
          | nil => rfl
          | cons x xs => simp [List.isPrefixOf] at hp
        subst hw
        rfl
      · right
        exact hl
    · left
      simp only [containsSub]
      simpa using hnil
  | cons c m' ih =>
    intro h
    rw [List.cons_append] at h
    simp only [containsSub, Bool.or_eq_true] at h ⊢
    rcases h with hpre | hrec
    · rcases isPrefixOf_concat a w (c :: m') (by simpa using hpre) with hp | hl
      · left
        left
        exact hp
      · right
        exact hl
    · rcases ih hrec with hc | hl
      · left
        right
        exact hc
      · right
        exact hl

theorem containsSub_append_of_last_not_mem (w : List Char) (x : Char)
    (hlast : w.getLast? = some x) :
    ∀ s : List Char, x ∉ s → ∀ l : List Char,
      containsSub w l = false → containsSub w (l ++ s) = false := by
  intro s
  induction s using List.reverseRecOn with
  | nil =>
    intro _ l h
    simpa using h
  | append_singleton s' a ih =>
    intro hx l h
    have hx' : x ∉ s' := fun hm => hx (List.mem_append_left [a] hm)
    have hxa : x ≠ a := fun he => hx (by simp [he])
    rw [← List.append_assoc]
    by_contra hcon
    have hcon' : containsSub w ((l ++ s') ++ [a]) = true := by
      simpa using hcon
    rcases containsSub_concat w a (l ++ s') hcon' with hc | hl
    · rw [ih hx' l h] at hc
      cases hc
    · rw [hlast] at hl
      exact hxa (Option.some.inj hl)

theorem count_flatten_replicate (piece : List Char) (c : Char) :
    ∀ n : Nat, ((List.replicate n piece).flatten).count c = n * piece.count c := by
  intro n
  induction n with
  | zero => simp
  | succ m ih =>
    rw [List.replicate_succ, List.flatten_cons, List.count_append, ih]
    ring

theorem mem_flatten_replicate {n : Nat} {piece : List Char} {c : Char}
    (h : c ∈ (List.replicate n piece).flatten) : c ∈ piece := by
  rcases List.mem_flatten.mp h with ⟨l, hl, hcl⟩
  rw [List.eq_of_mem_replicate hl] at hcl
  exact hcl

theorem closeBraces_shape (p : List Char) :
    ∃ s, closeBraces p = p ++ s ∧ ∀ c ∈ s, c = ' ' ∨ c = '}' := by
  unfold closeBraces
  split
  · refine ⟨_, rfl, ?_⟩
    intro c hc
    simpa using mem_flatten_replicate hc
  · exact ⟨[], by simp, by simp⟩

theorem closeBrackets_shape (p : List Char) :
    ∃ s, closeBrackets p = p ++ s ∧ ∀ c ∈ s, c = ' ' ∨ c = ']' := by
  unfold closeBrackets
  split
  · refine ⟨_, rfl, ?_⟩
    intro c hc
    simpa using mem_flatten_replicate hc
  · exact ⟨[], by simp, by simp⟩

theorem closeParens_shape (p : List Char) :
    ∃ s, closeParens p = p ++ s ∧ ∀ c ∈ s, c = ' ' ∨ c = ')' := by
  unfold closeParens
  split
  · refine ⟨_, rfl, ?_⟩
    intro c hc
    simpa using mem_flatten_replicate hc
  · exact ⟨[], by simp, by simp⟩

theorem autoClose_shape (code : List Char) :
    ∃ s, autoClose code = appendEnd code ++ s
      ∧ ∀ c ∈ s, c = ' ' ∨ c = '}' ∨ c = ']' ∨ c = ')' := by
  obtain ⟨s1, e1, h1⟩ := closeBraces_shape (appendEnd code)
  obtain ⟨s2, e2, h2⟩ := closeBrackets_shape (closeBraces (appendEnd code))
  obtain ⟨s3, e3, h3⟩ := closeParens_shape (closeBrackets (closeBraces (appendEnd code)))
  refine ⟨s1 ++ (s2 ++ s3), ?_, ?_⟩
  · show closeParens (closeBrackets (closeBraces (appendEnd code))) = _
    rw [e3, e2, e1]
    simp [List.append_assoc]
  · intro c hc
    simp only [List.mem_append] at hc
    rcases hc with h | h | h
    · rcases h1 c h with h' | h'
      · exact Or.inl h'
      · exact Or.inr (Or.inl h')
    · rcases h2 c h with h' | h'
      · exact Or.inl h'
      · exact Or.inr (Or.inr (Or.inl h'))
    · rcases h3 c h with h' | h'
      · exact Or.inl h'
      · exact Or.inr (Or.inr (Or.inr h'))

theorem closeBraces_count (p : List Char) (c : Char)
    (hc : ([' ', '}'] : List Char).count c = 0) :
    (closeBraces p).count c = p.count c := by
  unfold closeBraces
  split
  · rw [List.count_append, count_flatten_replicate, hc]
    ring
  · rfl

theorem closeBrackets_count (p : List Char) (c : Char)
    (hc : ([' ', ']'] : List Char).count c = 0) :
    (closeBrackets p).count c = p.count c := by
  unfold closeBrackets
  split
  · rw [List.count_append, count_flatten_replicate, hc]
    ring
  · rfl

theorem closeParens_count (p : List Char) (c : Char)
    (hc : ([' ', ')'] : List Char).count c = 0) :
    (closeParens p).count c = p.count c := by
  unfold closeParens
  split
  · rw [List.count_append, count_flatten_replicate, hc]
    ring
  · rfl

theorem closeBraces_balanced (p : List Char) :
    (closeBraces p).count '{' ≤ (closeBraces p).count '}' := by
  by_cases h : p.count '{' > p.count '}'
  · unfold closeBraces
    rw [if_pos h, List.count_append, List.count_append,
      count_flatten_replicate, count_flatten_replicate]
    have c1 : ([' ', '}'] : List Char).count '{' = 0 := by decide
    have c2 : ([' ', '}'] : List Char).count '}' = 1 := by decide
    rw [c1, c2]
    omega
  · unfold closeBraces
    rw [if_neg h]
    omega

theorem closeBrackets_balanced (p : List Char) :
    (closeBrackets p).count '[' ≤ (closeBrackets p).count ']' := by
  by_cases h : p.count '[' > p.count ']'
  · unfold closeBrackets
    rw [if_pos h, List.count_append, List.count_append,
      count_flatten_replicate, count_flatten_replicate]
    have c1 : ([' ', ']'] : List Char).count '[' = 0 := by decide
    have c2 : ([' ', ']'] : List Char).count ']' = 1 := by decide
    rw [c1, c2]
    omega
  · unfold closeBrackets
    rw [if_neg h]
    omega

theorem closeParens_balanced (p : List Char) :
    (closeParens p).count '(' ≤ (closeParens p).count ')' := by
  by_cases h : p.count '(' > p.count ')'
  · unfold closeParens
    rw [if_pos h, List.count_append, List.count_append,
      count_flatten_replicate, count_flatten_replicate]
    have c1 : ([' ', ')'] : List Char).count '(' = 0 := by decide
    have c2 : ([' ', ')'] : List Char).count ')' = 1 := by decide
    rw [c1, c2]
    omega
  · unfold closeParens
    rw [if_neg h]
    omega

theorem autoClose_braces_balanced (code : List Char) :
    (autoClose code).count '{' ≤ (autoClose code).count '}' := by
  unfold autoClose
  rw [closeParens_count _ '{' (by decide), closeParens_count _ '}' (by decide),
    closeBrackets_count _ '{' (by decide), closeBrackets_count _ '}' (by decide)]
  exact closeBraces_balanced _

theorem autoClose_brackets_balanced (code : List Char) :
    (autoClose code).count '[' ≤ (autoClose code).count ']' := by
  unfold autoClose
  rw [closeParens_count _ '[' (by decide), closeParens_count _ ']' (by decide)]
  exact closeBrackets_balanced _

theorem autoClose_parens_balanced (code : List Char) :
    (autoClose code).count '(' ≤ (autoClose code).count ')' := by
  exact closeParens_balanced _

theorem hasEndKeyword_append (x s : List Char)
    (hsq : ∀ c ∈ s, ¬(c = squote ∨ c = dquote)) (hba : boundaryAfter s = true)
    (h : hasEndKeyword x = true) : hasEndKeyword (x ++ s) = true := by
  unfold hasEndKeyword at h ⊢
  rw [stripStrings_append s hsq x.length x (Nat.le_refl _)]
  exact containsWordFrom_append _ s hba _ none h

theorem hasEndKeyword_append_end (code s : List Char)
    (hsq : ∀ c ∈ s, ¬(c = squote ∨ c = dquote)) (hba : boundaryAfter s = true) :
    hasEndKeyword (code ++ ("\nend".toList ++ s)) = true := by
  unfold hasEndKeyword
  have hfix : ∀ c ∈ ("\nend".toList : List Char), ¬(c = squote ∨ c = dquote) := by
    decide
  have hq2 : ∀ c ∈ ("\nend".toList ++ s), ¬(c = squote ∨ c = dquote) := by
    intro c hc
    rcases List.mem_append.mp hc with h1 | h2
    · exact hfix c h1
    · exact hsq c h2
  rw [stripStrings_append _ hq2 code.length code (Nat.le_refl _)]
  exact containsWordFrom_newline_word "end".toList s (by decide) hba
    (stripStrings code) none

theorem doAppendCond_autoClose (code : List Char) :
    doAppendCond (autoClose code) = false := by
  obtain ⟨s, hshape, hs⟩ := autoClose_shape code
  have hsnq : ∀ c ∈ s, ¬(c = squote ∨ c = dquote) := by
    intro c hc
    rcases hs c hc with rfl | rfl | rfl | rfl <;> decide
  have hsba : boundaryAfter s = true := by
    cases s with
    | nil => rfl
    | cons d ds =>
      rcases hs d (List.mem_cons_self d ds) with rfl | rfl | rfl | rfl <;>
        simp [boundaryAfter, isWordChar]
  have hpipe : ('|' : Char) ∉ s := by
    intro hm
    rcases hs _ hm with h | h | h | h <;> exact absurd h (by decide)
  have ho : ('o' : Char) ∉ s := by
    intro hm
    rcases hs _ hm with h | h | h | h <;> exact absurd h (by decide)
  by_cases hA : doAppendCond code = true
  · have he : appendEnd code = code ++ "\nend".toList := by
      unfold appendEnd
      rw [if_pos hA]
    have hEnd : hasEndKeyword (autoClose code) = true := by
      rw [hshape, he, List.append_assoc]
      exact hasEndKeyword_append_end code s hsnq hsba
    unfold doAppendCond
    rw [hEnd]
    rfl
  · have hA' : doAppendCond code = false := by simpa using hA
    have he : appendEnd code = code := by
      unfold appendEnd
      rw [if_neg (by simp [hA'])]
    rw [hshape, he]
    unfold doAppendCond at hA' ⊢
    by_cases hE : hasEndKeyword code = true
    · rw [hasEndKeyword_append code s hsnq hsba hE]
      rfl
    · have hE' : hasEndKeyword code = false := by simpa using hE
      rw [hE'] at hA'
      simp only [Bool.not_false, Bool.true_and] at hA'
      obtain ⟨ha, hb⟩ := Bool.or_eq_false_iff.mp hA'
      have hA_r : containsSub " do |".toList (code ++ s) = false :=
        containsSub_append_of_last_not_mem _ '|' (by decide) s hpipe code ha
      rcases Bool.and_eq_false_iff.mp hb with hB | hp
      · have hB_r : containsSub " do".toList (code ++ s) = false :=
          containsSub_append_of_last_not_mem _ 'o' (by decide) s ho code hB
        rw [hA_r, hB_r]
        simp
      · have hp' : code.contains '|' = true := by simpa using hp
        have hp_r : (code ++ s).contains '|' = true :=
          List.elem_eq_true_of_mem
            (List.mem_append_left s (List.mem_of_elem_eq_true hp'))
        rw [hA_r, hp_r]
        simp

theorem autoClose_eq_self (p : List Char) (hcond : doAppendCond p = false)
    (h1 : ¬ p.count '{' > p.count '}') (h2 : ¬ p.count '[' > p.count ']')
    (h3 : ¬ p.count '(' > p.count ')') : autoClose p = p := by
  have e1 : appendEnd p = p := by
    unfold appendEnd
    rw [if_neg (by simp [hcond])]
  have e2 : closeBraces p = p := by
    unfold closeBraces
    rw [if_neg h1]
  have e3 : closeBrackets p = p := by
    unfold closeBrackets
    rw [if_neg h2]
  have e4 : closeParens p = p := by
    unfold closeParens
    rw [if_neg h3]
  show closeParens (closeBrackets (closeBraces (appendEnd p))) = p
  rw [e1, e2, e3, e4]

theorem autoClose_append (code : List Char) : ∃ t, autoClose code = code ++ t := by
  obtain ⟨s, hshape, _⟩ := autoClose_shape code
  by_cases hA : doAppendCond code = true
  · refine ⟨"\nend".toList ++ s, ?_⟩
    rw [hshape]
    unfold appendEnd
    rw [if_pos hA, List.append_assoc]
  · refine ⟨s, ?_⟩
    rw [hshape]
    unfold appendEnd
    rw [if_neg hA]

/-- C6 (confirmed): fragment preprocessing is idempotent, and a fragment
containing none of the keywords `data`, `controller`, `target`, `action`,
`value` is returned verbatim (no auto-close fixups are applied). -/
theorem claim_C6_theorem :
    (∀ code : List Char,
      preprocessErbCode (preprocessErbCode code) = preprocessErbCode code)
    ∧ (∀ code : List Char,
      stimulusKeywords.any (fun k => containsSub k code) = false →
      preprocessErbCode code = code) := by
  have hgate : ∀ code : List Char,
      stimulusKeywords.any (fun k => containsSub k code) = false →
      preprocessErbCode code = code := by
    intro code h
    unfold preprocessErbCode
    rw [if_pos (by simp [h])]
  refine ⟨?_, hgate⟩
  intro code
  by_cases hkw : stimulusKeywords.any (fun k => containsSub k code) = true
  case neg =>
    have h0 := hgate code (by simpa using hkw)
    rw [h0]
    exact h0
  case pos =>
  by_cases g1 : guardSimpleExpr code = true
  · have h0 : preprocessErbCode code = code := by
      unfold preprocessErbCode
      rw [if_neg (by simp [hkw]), if_pos g1]
    rw [h0]
    exact h0
  by_cases g2 : guardControlFlow code = true
  · have h0 : preprocessErbCode code = code := by
      unfold preprocessErbCode
      rw [if_neg (by simp [hkw]), if_neg g1, if_pos g2]
    rw [h0]
    exact h0
  by_cases g3 : guardDefinition code = true
  · have h0 : preprocessErbCode code = code := by
      unfold preprocessErbCode
      rw [if_neg (by simp [hkw]), if_neg g1, if_neg g2, if_pos g3]
    rw [h0]
    exact h0
  by_cases g4 : guardAssignment code = true
  · have h0 : preprocessErbCode code = code := by
      unfold preprocessErbCode
      rw [if_neg (by simp [hkw]), if_neg g1, if_neg g2, if_neg g3, if_pos g4]
    rw [h0]
    exact h0
  have h0 : preprocessErbCode code = autoClose code := by
    unfold preprocessErbCode
    rw [if_neg (by simp [hkw]), if_neg g1, if_neg g2, if_neg g3, if_neg g4]
  rw [h0]
  have hkw' : stimulusKeywords.any (fun k => containsSub k (autoClose code)) = true := by
    rcases List.any_eq_true.mp hkw with ⟨k, hkmem, hck⟩
    refine List.any_eq_true.mpr ⟨k, hkmem, ?_⟩
    obtain ⟨t, ht⟩ := autoClose_append code
    rw [ht]
    exact containsSub_append_left k t code hck
  by_cases r1 : guardSimpleExpr (autoClose code) = true
  · unfold preprocessErbCode
    rw [if_neg (by simp [hkw']), if_pos r1]
  by_cases r2 : guardControlFlow (autoClose code) = true
  · unfold preprocessErbCode
    rw [if_neg (by simp [hkw']), if_neg r1, if_pos r2]
  by_cases r3 : guardDefinition (autoClose code) = true
  · unfold preprocessErbCode
    rw [if_neg (by simp [hkw']), if_neg r1, if_neg r2, if_pos r3]
  by_cases r4 : guardAssignment (autoClose code) = true
  · unfold preprocessErbCode
    rw [if_neg (by simp [hkw']), if_neg r1, if_neg r2, if_neg r3, if_pos r4]
  have hfin : preprocessErbCode (autoClose code) = autoClose (autoClose code) := by
    unfold preprocessErbCode
    rw [if_neg (by simp [hkw']), if_neg r1, if_neg r2, if_neg r3, if_neg r4]
  rw [hfin]
  exact autoClose_eq_self (autoClose code) (doAppendCond_autoClose code)
    (by have := autoClose_braces_balanced code; omega)
    (by have := autoClose_brackets_balanced code; omega)
    (by have := autoClose_parens_balanced code; omega)

theorem claim_C6_witness :
    (preprocessErbCode (preprocessErbCode "form_with url: data_path do |f|".toList)
      = preprocessErbCode "form_with url: data_path do |f|".toList)
    ∧ preprocessErbCode "x + y".toList = "x + y".toList :=
  ⟨claim_C6_theorem.1 ("form_with url: data_path do |f|".toList),
    claim_C6_theorem.2 ("x + y".toList) (by decide)⟩

end StimulusValidator
